import Mathlib

/-!
BinaryQuadkey.

A shallow embedding of `binaryquadkey.js`: map-tile quadkeys packed into one
64-bit integer.  The 64-bit integers of the library `long.js` are modelled by
their 64 bits, held as a natural number below `2^64`, together with the
`unsigned` flag of the object.  JavaScript numbers that are tile coordinates,
zoom levels or string lengths are natural numbers; a number that may be
negative (`toInt`, `getZoom`) is an integer; `NaN` is `none`.  A string is the
sequence of its code units, each held as a `Char`.  A function of the source
that can throw returns an `Option`, `none` being the exception.
-/

/-! ## The 64-bit integers of long.js -/

/-- A `Long` object: its 64 bits (`high * 2^32 + low`, both halves read as
unsigned) and its `unsigned` flag. -/
structure Long where
  bits : Nat
  unsigned : Bool
deriving DecidableEq, Repr

namespace Long

/-- `Long.fromBits(low, high, unsigned)`, also `new Long(low, high, unsigned)`:
each half keeps its low 32 bits (`low | 0`, `high | 0`). -/
def fromBits (low high : Nat) (unsigned : Bool) : Long :=
  ⟨(high % 2 ^ 32) * 2 ^ 32 + low % 2 ^ 32, unsigned⟩

/-- `Long.fromInt(value, unsigned)`: `value | 0` (`NaN | 0` is `0`) fills the
low half, and the high half is all ones when that 32-bit value is negative. -/
def fromInt (value : Option Nat) (unsigned : Bool) : Long :=
  let low := (value.getD 0) % 2 ^ 32
  fromBits low (if 2 ^ 31 ≤ low then 2 ^ 32 - 1 else 0) unsigned

/-- `Long.fromNumber(value)` for a non-negative integer: a signed Long, clamped
to `Long.MAX_VALUE` from `2^63 - 1` on.  This is what `fromValue` does to a
number passed to `or` or `and`. -/
def fromNumber (value : Nat) : Long :=
  if 2 ^ 63 ≤ value + 1 then ⟨2 ^ 63 - 1, false⟩
  else fromBits (value % 2 ^ 32) (value / 2 ^ 32) false

/-- `Long.UZERO`. -/
def UZERO : Long := fromInt (some 0) true

/-- `Long.UONE`. -/
def UONE : Long := fromInt (some 1) true

/-- `Long.UTHREE = Long.fromInt(3, true)`. -/
def UTHREE : Long := fromInt (some 3) true

/-- `this.or(other)`: bitwise OR, the flag of `this` is kept. -/
def or (this other : Long) : Long := ⟨this.bits ||| other.bits, this.unsigned⟩

/-- `this.and(other)`: bitwise AND, the flag of `this` is kept. -/
def and (this other : Long) : Long := ⟨this.bits &&& other.bits, this.unsigned⟩

/-- `this.shiftLeft(numBits)`: `numBits &= 63`, then the 64 bits move left and
what leaves bit 63 is lost. -/
def shiftLeft (this : Long) (numBits : Int) : Long :=
  let n := (numBits % 64).toNat
  if n = 0 then this else ⟨(this.bits <<< n) % 2 ^ 64, this.unsigned⟩

/-- `this.shiftRight(numBits)`: `numBits &= 63`, then an ARITHMETIC shift: the
high half moves with `>>`, so a set bit 63 is copied into the vacated bits,
whatever the `unsigned` flag says. -/
def shiftRight (this : Long) (numBits : Int) : Long :=
  let n := (numBits % 64).toNat
  if n = 0 then this
  else if 2 ^ 63 ≤ this.bits % 2 ^ 64 then
    ⟨(this.bits % 2 ^ 64) >>> n ||| (2 ^ 64 - 2 ^ (64 - n)), this.unsigned⟩
  else ⟨(this.bits % 2 ^ 64) >>> n, this.unsigned⟩

/-- `this.toInt()`: `this.unsigned ? this.low >>> 0 : this.low`. -/
def toInt (this : Long) : Int :=
  let low : Nat := this.bits % 2 ^ 32
  if this.unsigned then (low : Int)
  else if 2 ^ 31 ≤ low then (low : Int) - 2 ^ 32 else (low : Int)

/-- `this.equals(other)`: false when the flags differ and both have bit 63
set, otherwise both halves are compared. -/
def equals (this other : Long) : Bool :=
  if this.unsigned ≠ other.unsigned ∧ this.bits / 2 ^ 63 % 2 = 1 ∧ other.bits / 2 ^ 63 % 2 = 1 then
    false
  else decide (this.bits = other.bits)

/-- The field `this.low`: the low 32 bits, read as a signed 32-bit integer. -/
def low (this : Long) : Int :=
  let l : Nat := this.bits % 2 ^ 32
  if 2 ^ 31 ≤ l then (l : Int) - 2 ^ 32 else (l : Int)

/-- The field `this.high`: the high 32 bits, read as a signed 32-bit integer. -/
def high (this : Long) : Int :=
  let h : Nat := this.bits / 2 ^ 32 % 2 ^ 32
  if 2 ^ 31 ≤ h then (h : Int) - 2 ^ 32 else (h : Int)

/-- `this.getHighBitsUnsigned()`: `this.high >>> 0`. -/
def getHighBitsUnsigned (this : Long) : Nat := (this.high % 2 ^ 32).toNat

/-- `this.getLowBitsUnsigned()`: `this.low >>> 0`. -/
def getLowBitsUnsigned (this : Long) : Nat := (this.low % 2 ^ 32).toNat

/-- The character of a digit in a numeral: `0-9`, then `a-z`. -/
def digitChar (d : Nat) : Char :=
  if d < 10 then Char.ofNat (48 + d) else Char.ofNat (87 + d)

/-- The digits of `n` in base `radix`, most significant first, put in front of
`ds`; the first argument bounds the number of digits. -/
def numeralCore (radix : Nat) : Nat → Nat → List Char → List Char
  | 0, _, ds => ds
  | fuel + 1, n, ds =>
    let d := digitChar (n % radix)
    let n' := n / radix
    if n' = 0 then d :: ds else numeralCore radix fuel n' (d :: ds)

/-- The numeral of `n` in base `radix`, as long.js and JavaScript write it: no
sign, no leading zero, the numeral of zero being the one character 0. -/
def numeral (radix n : Nat) : String := ⟨numeralCore radix (n + 1) n []⟩

/-- `this.toString(radix)`: `radix || 10`; a radix outside 2..36 throws a
RangeError (`none`); an unsigned Long is written as the numeral of its 64 bits,
a signed Long with bit 63 set as a minus sign and the numeral of its absolute
value. -/
def toString (this : Long) (radix : Option Nat) : Option String :=
  let radix := if radix.getD 0 ≠ 0 then radix.getD 0 else 10
  if radix < 2 ∨ 36 < radix then none
  else if ¬ this.unsigned ∧ 2 ^ 63 ≤ this.bits then
    some ("-" ++ numeral radix (2 ^ 64 - this.bits))
  else some (numeral radix this.bits)

end Long

/-! ## JavaScript primitives used by the source -/

/-- `parseInt(s, 10)` for `s = str.charAt(i)`: a one-character string, or the
empty string past the end.  A decimal digit gives its value, anything else
`NaN`. -/
def parseInt (c : Option Char) : Option Nat :=
  match c with
  | none => none
  | some c => if c.isDigit then some (c.toNat - 48) else none

/-! ## BinaryQuadkey -/

/-- The fields of a BinaryQuadkey object. -/
structure BinaryQuadkey where
  x : Nat
  y : Nat
  zoom : Nat
  UInt64Quadkey : Long
deriving DecidableEq, Repr

namespace BinaryQuadkey

/-- The body of the loop of `fromTileXY`, at the value `i` of the loop variable
(`i > 0`).  `1 << (i - 1)` takes its shift count modulo 32, and `x & mask`
reads the low 32 bits of `x`. -/
def fromTileXYBody (x y zoom i : Nat) (result : Long) : Long :=
  let mask := 1 <<< ((i - 1) % 32)
  let bitLocation : Int := 64 - (((zoom : Int) - (i : Int) + 1) * 2) + 1
  let result :=
    if (x % 2 ^ 32) &&& mask ≠ 0 then result.or (Long.UONE.shiftLeft (bitLocation - 1))
    else result
  if (y % 2 ^ 32) &&& mask ≠ 0 then result.or (Long.UONE.shiftLeft bitLocation)
  else result

/-- The loop of `fromTileXY`: `for (var i = zoom; i > 0; --i)`, the first
argument being the value of `i`. -/
def fromTileXYLoop (x y zoom : Nat) : Nat → Long → Long
  | 0, result => result
  | i + 1, result => fromTileXYLoop x y zoom i (fromTileXYBody x y zoom (i + 1) result)

/-- `BinaryQuadkey.fromTileXY(x, y, zoom)`: the packed integer of a tile. -/
def fromTileXY (x y zoom : Nat) : Long :=
  (fromTileXYLoop x y zoom zoom Long.UZERO).or (Long.fromNumber zoom)

/-- The constructor `new BinaryQuadkey(x, y, zoom, uint64quadkey)`; an argument
left out is `none`. -/
def new (x y zoom : Option Nat) (uint64quadkey : Option Long) : BinaryQuadkey :=
  let x := x.getD 0
  let y := y.getD 0
  let zoom := zoom.getD 0
  ⟨x, y, zoom, uint64quadkey.getD (fromTileXY x y zoom)⟩

/-- `BinaryQuadkey.fromUInt64(uint64quadkey, zoom)`: a zoom that is left out,
or `0`, is read from the low 5 bits. -/
def fromUInt64 (uint64quadkey : Long) (zoom : Option Nat) : BinaryQuadkey :=
  let zoom :=
    if zoom.getD 0 ≠ 0 then zoom.getD 0
    else ((uint64quadkey.and (Long.fromNumber 31)).toInt).toNat
  new none none (some zoom) (some uint64quadkey)

/-- The body of the loop of `fromQuadkey`, at index `i`. -/
def fromQuadkeyBody (quadKeyString : String) (result : Long) (i : Nat) : Long :=
  let bitLocation : Int := 64 - (((i : Int) + 1) * 2)
  let num := parseInt (quadKeyString.data.get? i)
  result.or ((Long.fromInt num false).shiftLeft bitLocation)

/-- `BinaryQuadkey.fromQuadkey(quadKeyString)`: the loop is
`for (var i = 0; i < zoom; ++i)`. -/
def fromQuadkey (quadKeyString : String) : BinaryQuadkey :=
  let zoom := quadKeyString.length
  let result := (List.range zoom).foldl (fromQuadkeyBody quadKeyString) Long.UZERO
  fromUInt64 (result.or (Long.fromNumber zoom)) (some zoom)

/-- `BinaryQuadkey.fromBits(low, high)`. -/
def fromBits (low high : Nat) : BinaryQuadkey :=
  fromUInt64 (Long.fromBits low high true) none

/-- The table `PREFIX_MASKS`, indexed `0..23`; any other index is `undefined`. -/
def PREFIX_MASKS (zoom : Nat) : Option Long :=
  match zoom with
  | 0 => some (Long.fromBits 0b00000000000000000000000000000000 0b00000000000000000000000000000000 true)
  | 1 => some (Long.fromBits 0b00000000000000000000000000000000 0b11000000000000000000000000000000 true)
  | 2 => some (Long.fromBits 0b00000000000000000000000000000000 0b11110000000000000000000000000000 true)
  | 3 => some (Long.fromBits 0b00000000000000000000000000000000 0b11111100000000000000000000000000 true)
  | 4 => some (Long.fromBits 0b00000000000000000000000000000000 0b11111111000000000000000000000000 true)
  | 5 => some (Long.fromBits 0b00000000000000000000000000000000 0b11111111110000000000000000000000 true)
  | 6 => some (Long.fromBits 0b00000000000000000000000000000000 0b11111111111100000000000000000000 true)
  | 7 => some (Long.fromBits 0b00000000000000000000000000000000 0b11111111111111000000000000000000 true)
  | 8 => some (Long.fromBits 0b00000000000000000000000000000000 0b11111111111111110000000000000000 true)
  | 9 => some (Long.fromBits 0b00000000000000000000000000000000 0b11111111111111111100000000000000 true)
  | 10 => some (Long.fromBits 0b00000000000000000000000000000000 0b11111111111111111111000000000000 true)
  | 11 => some (Long.fromBits 0b00000000000000000000000000000000 0b11111111111111111111110000000000 true)
  | 12 => some (Long.fromBits 0b00000000000000000000000000000000 0b11111111111111111111111100000000 true)
  | 13 => some (Long.fromBits 0b00000000000000000000000000000000 0b11111111111111111111111111000000 true)
  | 14 => some (Long.fromBits 0b00000000000000000000000000000000 0b11111111111111111111111111110000 true)
  | 15 => some (Long.fromBits 0b00000000000000000000000000000000 0b11111111111111111111111111111100 true)
  | 16 => some (Long.fromBits 0b00000000000000000000000000000000 0b11111111111111111111111111111111 true)
  | 17 => some (Long.fromBits 0b11000000000000000000000000000000 0b11111111111111111111111111111111 true)
  | 18 => some (Long.fromBits 0b11110000000000000000000000000000 0b11111111111111111111111111111111 true)
  | 19 => some (Long.fromBits 0b11111100000000000000000000000000 0b11111111111111111111111111111111 true)
  | 20 => some (Long.fromBits 0b11111111000000000000000000000000 0b11111111111111111111111111111111 true)
  | 21 => some (Long.fromBits 0b11111111110000000000000000000000 0b11111111111111111111111111111111 true)
  | 22 => some (Long.fromBits 0b11111111111100000000000000000000 0b11111111111111111111111111111111 true)
  | 23 => some (Long.fromBits 0b11111111111111000000000000000000 0b11111111111111111111111111111111 true)
  | _ => none

/-- The body of the loop of `toQuadkey`, at index `i`: the decimal numeral of
the number `charBits` is appended to the string. -/
def toQuadkeyBody (this : BinaryQuadkey) (quadkeyChars : String) (i : Nat) : String :=
  let bitLocation : Int := 64 - (((i : Int) + 1) * 2)
  let charBits :=
    ((this.UInt64Quadkey.and (Long.UTHREE.shiftLeft bitLocation)).shiftRight bitLocation).toInt
  quadkeyChars ++ toString charBits

/-- `toQuadkey()`: the loop is `for (var i = 0; i < this.zoom; ++i)`. -/
def toQuadkey (this : BinaryQuadkey) : String :=
  (List.range this.zoom).foldl (toQuadkeyBody this) ""

/-- `getZoom()`: the low 5 bits of the packed integer. -/
def getZoom (this : BinaryQuadkey) : Int :=
  (this.UInt64Quadkey.and (Long.fromNumber 31)).toInt

/-- `this.isParentOf(other)`; `none` is the TypeError that `and(undefined)`
throws when `PREFIX_MASKS` has no entry for `this.zoom`. -/
def isParentOf (this other : BinaryQuadkey) : Option Bool :=
  if other.getZoom ≤ (this.zoom : Int) then some false
  else
    match PREFIX_MASKS this.zoom with
    | none => none
    | some mask => some ((this.UInt64Quadkey.and mask).equals (other.UInt64Quadkey.and mask))

/-- `this.equals(other)`. -/
def equals (this other : BinaryQuadkey) : Bool :=
  this.UInt64Quadkey.equals other.UInt64Quadkey

/-- `toBuffer()`: the 8 bytes `(half >> k) & 0xff`, least significant first,
then reversed.  On a signed 32-bit integer `>>` is the floor of the division by
`2^k` and `& 0xff` the remainder modulo 256. -/
def toBuffer (this : BinaryQuadkey) : List Nat :=
  let ret := [
    (this.UInt64Quadkey.low % 256).toNat,
    ((this.UInt64Quadkey.low >>> (8 : Nat)) % 256).toNat,
    ((this.UInt64Quadkey.low >>> (16 : Nat)) % 256).toNat,
    ((this.UInt64Quadkey.low >>> (24 : Nat)) % 256).toNat,
    (this.UInt64Quadkey.high % 256).toNat,
    ((this.UInt64Quadkey.high >>> (8 : Nat)) % 256).toNat,
    ((this.UInt64Quadkey.high >>> (16 : Nat)) % 256).toNat,
    ((this.UInt64Quadkey.high >>> (24 : Nat)) % 256).toNat]
  ret.reverse

/-- `toString(radix)`: the `toString` of the packed Long. -/
def toString (this : BinaryQuadkey) (radix : Option Nat) : Option String :=
  this.UInt64Quadkey.toString radix

/-- `getHighBits()`. -/
def getHighBits (this : BinaryQuadkey) : Nat := this.UInt64Quadkey.getHighBitsUnsigned

/-- `getLowBits()`. -/
def getLowBits (this : BinaryQuadkey) : Nat := this.UInt64Quadkey.getLowBitsUnsigned

end BinaryQuadkey


/-! ## Notions of the specification -/

/-- The digits a quadkey string may hold. -/
def quadDigits : List Char := ['0', '1', '2', '3']

/-- The value of a digit character. -/
def digitValue (c : Char) : Nat := c.toNat - 48

/-- The base-4 number a list of digits writes, first digit most significant. -/
def quadValue (ds : List Nat) : Nat := Nat.ofDigits 4 ds.reverse

/-- The quadrant digit of a tile at bit `j` of its coordinates:
`2 * bit(y, j) + bit(x, j)`. -/
def tileDigit (x y j : Nat) : Nat := 2 * (y / 2 ^ j % 2) + x / 2 ^ j % 2

/-- The standard quadkey string of the tile `(x, y)` at zoom `z`: `z`
characters, the `i`-th being the digit `2 * bit(y, z-1-i) + bit(x, z-1-i)`. -/
def tileQuadkey (x y z : Nat) : String :=
  ⟨(List.range z).map (fun i => Char.ofNat (48 + tileDigit x y (z - 1 - i)))⟩

open BinaryQuadkey

/-- The keys the public constructors give when an explicit zoom passed to
`fromUInt64` is not below the low 5 bits of the value: `new BinaryQuadkey(x, y,
zoom)` with any arguments or none, `fromQuadkey` of any string, `fromUInt64`
without a zoom, `fromUInt64` with such a zoom, and `fromBits`. -/
inductive Constructed : BinaryQuadkey → Prop
  | ofNew (x y zoom : Option Nat) : Constructed (new x y zoom none)
  | ofQuadkey (s : String) : Constructed (fromQuadkey s)
  | ofUInt64 (v : Long) : Constructed (fromUInt64 v none)
  | ofUInt64Zoom (v : Long) (zoom : Nat)
      (h : (v.and (Long.fromNumber 31)).toInt ≤ (zoom : Int)) :
      Constructed (fromUInt64 v (some zoom))
  | ofBits (low high : Nat) : Constructed (fromBits low high)

/-- The string in which every character that is not a decimal digit is
replaced by the character 0. -/
def zeroNonDigits (s : String) : String :=
  ⟨s.data.map (fun c => if c.isDigit then c else '0')⟩

/-- The value of a digit character of a numeral: `0-9` are 0..9 and `a-z` are
10..35. -/
def charDigit (c : Char) : Nat := if c.toNat ≤ 57 then c.toNat - 48 else c.toNat - 87

/-- The characters of a numeral: the decimal digits and the lowercase letters. -/
def numeralChars : List Char := "0123456789abcdefghijklmnopqrstuvwxyz".data

/-- The number that a numeral writes in base `radix`, first character most
significant. -/
def numeralValue (radix : Nat) (s : String) : Nat :=
  s.data.foldl (fun acc c => acc * radix + charDigit c) 0

/-- The keys whose zoom field agrees with `getZoom()`: those of
`new BinaryQuadkey(x, y, zoom)` with a zoom of at most 31, of `fromQuadkey` of
a string of at most 31 characters, of `fromUInt64` without a zoom, and of
`fromBits`. -/
inductive ZoomKept : BinaryQuadkey → Prop
  | ofNew (x y zoom : Option Nat) (h : zoom.getD 0 ≤ 31) : ZoomKept (new x y zoom none)
  | ofQuadkey (s : String) (h : s.length ≤ 31) : ZoomKept (fromQuadkey s)
  | ofUInt64 (v : Long) : ZoomKept (fromUInt64 v none)
  | ofBits (low high : Nat) : ZoomKept (fromBits low high)

/-- The packed integer that a digit string has in a word of `k` bits: its
base-4 value in the top `2 * length` bits, its length in the low bits. -/
def packedAt (k : Nat) (l : List Char) : Nat :=
  quadValue (l.map digitValue) * 2 ^ (k - 2 * l.length) + l.length

/-! ## Bit arithmetic -/

theorem mul_pow_or (a b p : Nat) : a * 2 ^ p ||| b * 2 ^ p = (a ||| b) * 2 ^ p := by
  apply Nat.eq_of_testBit_eq
  intro j
  simp only [Nat.mul_comm _ (2 ^ p), Nat.testBit_or, Nat.testBit_mul_pow_two]
  cases decide (j ≥ p) <;> simp

theorem four_mul_or (a d : Nat) (hd : d < 4) : 4 * a ||| d = 4 * a + d := by
  have h := Nat.mul_add_lt_is_or (i := 2) (b := d) (by simpa using hd) a
  simpa using h.symm

theorem or_digit (a d p : Nat) (hd : d < 4) :
    a * 2 ^ (p + 2) ||| d * 2 ^ p = (4 * a + d) * 2 ^ p := by
  have h : a * 2 ^ (p + 2) = 4 * a * 2 ^ p := by ring
  rw [h, mul_pow_or, four_mul_or a d hd]

theorem mul_pow_or_small (a p n : Nat) (hn : n < 2 ^ p) : a * 2 ^ p ||| n = a * 2 ^ p + n := by
  rw [Nat.mul_comm]
  exact (Nat.mul_add_lt_is_or hn a).symm

theorem and_two_pow_ne_zero (x i : Nat) : x &&& 2 ^ i ≠ 0 ↔ x / 2 ^ i % 2 = 1 := by
  have h : x &&& 2 ^ i = if x.testBit i then 2 ^ i else 0 := by
    apply Nat.eq_of_testBit_eq
    intro j
    rw [Nat.testBit_and, Nat.testBit_two_pow]
    by_cases hij : i = j
    · subst hij
      cases hx : x.testBit i <;> simp [Nat.testBit_two_pow_self]
    · cases hx : x.testBit i <;> simp [hij, Nat.testBit_two_pow]
  rw [h]
  have h2 : x.testBit i = decide (x / 2 ^ i % 2 = 1) := Nat.testBit_to_div_mod
  by_cases hb : x / 2 ^ i % 2 = 1
  · simp [h2, hb]
  · simp [h2, hb]

theorem mask_test (x i : Nat) (hi : 1 ≤ i) (hi32 : i ≤ 32) :
    (x % 2 ^ 32) &&& (1 <<< ((i - 1) % 32)) ≠ 0 ↔ x / 2 ^ (i - 1) % 2 = 1 := by
  have h1 : (i - 1) % 32 = i - 1 := Nat.mod_eq_of_lt (by omega)
  rw [h1, Nat.one_shiftLeft, and_two_pow_ne_zero]
  have h2 : x % 2 ^ 32 / 2 ^ (i - 1) % 2 = x / 2 ^ (i - 1) % 2 := by
    have e : (2 : Nat) ^ 32 = 2 ^ (i - 1) * (2 * 2 ^ (32 - i)) := by
      rw [← pow_succ', ← pow_add]
      congr 1
      omega
    rw [e, Nat.mod_mul_right_div_self, Nat.mod_mul_right_mod]
  rw [h2]

/-! ## The Long operations on small arguments -/

theorem Long.fromNumber_of_lt (n : Nat) (h : n < 2 ^ 32) : Long.fromNumber n = ⟨n, false⟩ := by
  have h1 : ¬ 2 ^ 63 ≤ n + 1 := by omega
  unfold Long.fromNumber Long.fromBits
  rw [if_neg h1]
  congr 1
  omega

theorem Long.fromInt_of_lt (d : Nat) (u : Bool) (h : d < 2 ^ 31) :
    Long.fromInt (some d) u = ⟨d, u⟩ := by
  have h1 : d % 2 ^ 32 = d := Nat.mod_eq_of_lt (by omega)
  have h2 : ¬ 2 ^ 31 ≤ d := by omega
  unfold Long.fromInt Long.fromBits
  simp only [Option.getD_some, h1, if_neg h2]
  congr 1
  omega

theorem Long.shiftLeft_natCast (a : Long) (p : Nat) (hp : p < 64) (h : a.bits * 2 ^ p < 2 ^ 64) :
    a.shiftLeft (p : Int) = ⟨a.bits * 2 ^ p, a.unsigned⟩ := by
  have hn : ((p : Int) % 64).toNat = p := by omega
  unfold Long.shiftLeft
  simp only [hn]
  split
  · next h0 => subst h0; simp
  · rw [Nat.shiftLeft_eq, Nat.mod_eq_of_lt h]

theorem Long.UONE_shiftLeft (p : Nat) (hp : p < 64) :
    Long.UONE.shiftLeft (p : Int) = ⟨2 ^ p, true⟩ := by
  have h1 : Long.UONE = ⟨1, true⟩ := Long.fromInt_of_lt 1 true (by norm_num)
  have h2 : (2 : Nat) ^ p < 2 ^ 64 := Nat.pow_lt_pow_right (by norm_num) hp
  rw [h1, Long.shiftLeft_natCast _ p hp (by simpa using h2)]
  simp

/-! ## The packed integer of `fromTileXY` -/

theorem BinaryQuadkey.fromTileXYBody_bits (x y z i a : Nat) (u : Bool) (hi : 1 ≤ i) (hiz : i ≤ z)
    (hz : z ≤ 32) :
    fromTileXYBody x y z i ⟨a * 2 ^ (64 - 2 * (z - i)), u⟩
      = ⟨(4 * a + tileDigit x y (i - 1)) * 2 ^ (64 - 2 * (z - i + 1)), u⟩ := by
  obtain ⟨p, hp⟩ : ∃ p, p = 64 - 2 * (z - i + 1) := ⟨_, rfl⟩
  have hp2 : 64 - 2 * (z - i) = p + 2 := by omega
  have e1 : (64 - (((z : Int) - (i : Int) + 1) * 2) + 1 - 1 : Int) = ((p : Nat) : Int) := by omega
  have e2 : (64 - (((z : Int) - (i : Int) + 1) * 2) + 1 : Int) = ((p + 1 : Nat) : Int) := by omega
  have s1 : Long.UONE.shiftLeft ((p : Nat) : Int) = ⟨2 ^ p, true⟩ :=
    Long.UONE_shiftLeft p (by omega)
  have s2 : Long.UONE.shiftLeft ((p + 1 : Nat) : Int) = ⟨2 ^ (p + 1), true⟩ :=
    Long.UONE_shiftLeft (p + 1) (by omega)
  have o1 : a * 2 ^ (p + 2) ||| 2 ^ p = (4 * a + 1) * 2 ^ p := by
    simpa using or_digit a 1 p (by norm_num)
  have o2 : a * 2 ^ (p + 2) ||| 2 ^ (p + 1) = (4 * a + 2) * 2 ^ p := by
    have := or_digit a 2 p (by norm_num)
    rwa [show 2 * 2 ^ p = 2 ^ (p + 1) by ring] at this
  have o3 : (4 * a + 1) * 2 ^ p ||| 2 ^ (p + 1) = (4 * a + 3) * 2 ^ p := by
    rw [show (2 : Nat) ^ (p + 1) = 2 * 2 ^ p by ring, mul_pow_or]
    congr 1
    rw [← four_mul_or a 1 (by norm_num), Nat.or_assoc, four_mul_or a (1 ||| 2) (by decide)]
    rfl
  have bx : x / 2 ^ (i - 1) % 2 = 0 ∨ x / 2 ^ (i - 1) % 2 = 1 := by omega
  have by1 : y / 2 ^ (i - 1) % 2 = 0 ∨ y / 2 ^ (i - 1) % 2 = 1 := by omega
  unfold fromTileXYBody
  simp only [e1]
  simp only [mask_test x i hi (by omega), mask_test y i hi (by omega), e2, s1, s2, hp2, ← hp,
    Long.or, tileDigit]
  rcases bx with hx | hx <;> rcases by1 with hy | hy <;>
    simp only [hx, hy, o1, o2, o3, if_true, if_false, one_ne_zero, not_false_eq_true,
      not_true_eq_false, Nat.zero_ne_one, Nat.mul_zero, Nat.mul_one, Nat.add_zero, Nat.zero_add,
      Long.mk.injEq, and_true]
  all_goals ring

theorem BinaryQuadkey.fromTileXYLoop_bits (x y z : Nat) (hz : z ≤ 32) (u : Bool) :
    ∀ (k a : Nat), k ≤ z →
      fromTileXYLoop x y z k ⟨a * 2 ^ (64 - 2 * (z - k)), u⟩
        = ⟨(a * 4 ^ k + ∑ j in Finset.range k, tileDigit x y j * 4 ^ j) * 2 ^ (64 - 2 * z), u⟩ := by
  intro k
  induction k with
  | zero => intro a _; simp [fromTileXYLoop]
  | succ k ih =>
    intro a hk
    have hb := fromTileXYBody_bits x y z (k + 1) a u (by omega) hk hz
    have e : z - (k + 1) + 1 = z - k := by omega
    rw [e] at hb
    rw [fromTileXYLoop, hb, ih _ (by omega), Finset.sum_range_succ]
    simp only [Nat.add_sub_cancel]
    congr 1
    ring

theorem BinaryQuadkey.fromTileXY_eq (x y z : Nat) (hz : z ≤ 29) :
    fromTileXY x y z
      = ⟨(∑ j in Finset.range z, tileDigit x y j * 4 ^ j) * 2 ^ (64 - 2 * z) + z, true⟩ := by
  have h0 : Long.UZERO = ⟨0 * 2 ^ (64 - 2 * (z - z)), true⟩ := by
    rw [Nat.zero_mul]
    exact Long.fromInt_of_lt 0 true (by norm_num)
  have hlt : z < 2 ^ (64 - 2 * z) :=
    calc z < 2 ^ 6 := by omega
      _ ≤ 2 ^ (64 - 2 * z) := Nat.pow_le_pow_right (by norm_num) (by omega)
  unfold fromTileXY
  rw [h0, fromTileXYLoop_bits x y z (by omega) true z 0 (le_refl z),
    Long.fromNumber_of_lt z (by omega)]
  simp only [Long.or, Nat.zero_mul, Nat.zero_add]
  rw [mul_pow_or_small _ _ _ hlt]

/-! ## The packed integer of `fromQuadkey` -/

theorem parseInt_quadDigit (c : Char) (hc : c ∈ quadDigits) :
    parseInt (some c) = some (digitValue c) ∧ digitValue c < 4 := by
  simp only [quadDigits, List.mem_cons, List.mem_singleton, List.not_mem_nil, or_false] at hc
  rcases hc with h | h | h | h <;> subst h <;> exact ⟨rfl, by decide⟩

theorem quadValue_append_singleton (l : List Nat) (d : Nat) :
    quadValue (l ++ [d]) = 4 * quadValue l + d := by
  simp [quadValue, Nat.ofDigits_cons, Nat.add_comm]

theorem BinaryQuadkey.fromQuadkeyBody_bits (l : List Char) (hl : ∀ c ∈ l, c ∈ quadDigits)
    (n a : Nat) (hn : n < l.length) (hn32 : n < 32) :
    fromQuadkeyBody ⟨l⟩ ⟨a * 2 ^ (64 - 2 * n), true⟩ n
      = ⟨(4 * a + digitValue (l.get ⟨n, hn⟩)) * 2 ^ (64 - 2 * (n + 1)), true⟩ := by
  obtain ⟨p, hp⟩ : ∃ p, p = 64 - 2 * (n + 1) := ⟨_, rfl⟩
  have hp2 : 64 - 2 * n = p + 2 := by omega
  have e1 : (64 - (((n : Int) + 1) * 2) : Int) = ((p : Nat) : Int) := by omega
  have hg : l.get? n = some (l.get ⟨n, hn⟩) := List.get?_eq_get hn
  obtain ⟨hpi, hd⟩ := parseInt_quadDigit (l.get ⟨n, hn⟩) (hl _ (List.get_mem l n hn))
  have hlt : digitValue (l.get ⟨n, hn⟩) * 2 ^ p < 2 ^ 64 :=
    calc digitValue (l.get ⟨n, hn⟩) * 2 ^ p < 4 * 2 ^ p :=
          Nat.mul_lt_mul_of_lt_of_le hd (le_refl _) (Nat.two_pow_pos p)
      _ = 2 ^ (p + 2) := by ring
      _ ≤ 2 ^ 64 := Nat.pow_le_pow_right (by norm_num) (by omega)
  unfold fromQuadkeyBody
  simp only [e1, hg, hpi, Long.fromInt_of_lt _ false (show digitValue (l.get ⟨n, hn⟩) < 2 ^ 31 by omega)]
  rw [Long.shiftLeft_natCast _ p (by omega) hlt]
  simp only [Long.or, hp2, ← hp, or_digit _ _ _ hd]

theorem BinaryQuadkey.fromQuadkey_fold_bits (l : List Char) (hl : ∀ c ∈ l, c ∈ quadDigits) :
    ∀ n, n ≤ l.length → n ≤ 32 →
      (List.range n).foldl (fromQuadkeyBody ⟨l⟩) Long.UZERO
        = ⟨quadValue ((l.take n).map digitValue) * 2 ^ (64 - 2 * n), true⟩ := by
  intro n
  induction n with
  | zero =>
    intro _ _
    simpa [quadValue] using Long.fromInt_of_lt 0 true (by norm_num)
  | succ n ih =>
    intro hn hn32
    have hn' : n < l.length := by omega
    rw [List.range_succ, List.foldl_append, ih (by omega) (by omega)]
    simp only [List.foldl_cons, List.foldl_nil]
    rw [fromQuadkeyBody_bits l hl n _ hn' (by omega)]
    have ht : l.take (n + 1) = l.take n ++ [l.get ⟨n, hn'⟩] := by
      rw [List.take_succ, List.getElem?_eq_getElem hn']
      rfl
    rw [ht, List.map_append, List.map_singleton, quadValue_append_singleton]

theorem BinaryQuadkey.fromQuadkey_eq (s : String) (hs : ∀ c ∈ s.data, c ∈ quadDigits)
    (hlen : s.length ≤ 29) :
    fromQuadkey s
      = ⟨0, 0, s.length,
          ⟨quadValue (s.data.map digitValue) * 2 ^ (64 - 2 * s.length) + s.length, true⟩⟩ := by
  obtain ⟨l⟩ := s
  simp only [String.length] at hlen ⊢
  have hlt : l.length < 2 ^ (64 - 2 * l.length) :=
    calc l.length < 2 ^ 6 := by omega
      _ ≤ 2 ^ (64 - 2 * l.length) := Nat.pow_le_pow_right (by norm_num) (by omega)
  unfold fromQuadkey
  simp only [String.length]
  rw [fromQuadkey_fold_bits l hs l.length (le_refl _) (by omega), List.take_length,
    Long.fromNumber_of_lt _ (by omega)]
  simp only [Long.or, mul_pow_or_small _ _ _ hlt]
  by_cases h0 : l.length = 0
  · have hnil : l = [] := List.length_eq_zero.mp h0
    subst hnil
    rfl
  · simp [fromUInt64, new, h0]

/-! ## Zoom bits and prefix masks -/

theorem packed_mod (v m n : Nat) (hm : 5 ≤ m) (hn : n < 32) : (v * 2 ^ m + n) % 2 ^ 5 = n := by
  have e : v * 2 ^ m = 2 ^ 5 * (v * 2 ^ (m - 5)) := by
    rw [← Nat.mul_assoc, Nat.mul_comm (2 ^ 5) v, Nat.mul_assoc, ← pow_add]
    congr 2
    omega
  rw [e, Nat.mul_add_mod]
  exact Nat.mod_eq_of_lt hn

theorem BinaryQuadkey.getZoom_eq (x y zoom v m n : Nat) (u : Bool) (hm : 5 ≤ m) (hn : n < 32) :
    getZoom ⟨x, y, zoom, ⟨v * 2 ^ m + n, u⟩⟩ = (n : Int) := by
  have h31 : Long.fromNumber 31 = ⟨2 ^ 5 - 1, false⟩ := Long.fromNumber_of_lt 31 (by norm_num)
  have hmod : (v * 2 ^ m + n) % 2 ^ 5 = n := packed_mod v m n hm hn
  have hn32 : n % 2 ^ 32 = n := Nat.mod_eq_of_lt (by omega)
  unfold getZoom Long.toInt
  simp only [h31, Long.and, Nat.and_pow_two_sub_one_eq_mod, hmod, hn32]
  have hn31 : ¬ 2 ^ 31 ≤ n := by omega
  cases u
  · simp only [Bool.false_eq_true, if_false, if_neg hn31]
  · simp only [if_true]

theorem BinaryQuadkey.PREFIX_MASKS_eq (k : Nat) (hk : k ≤ 23) :
    PREFIX_MASKS k = some ⟨2 ^ 64 - 2 ^ (64 - 2 * k), true⟩ := by
  interval_cases k <;> rfl

theorem and_prefix_mask (v m : Nat) (hv : v < 2 ^ 64) (hm : m ≤ 64) :
    v &&& (2 ^ 64 - 2 ^ m) = v / 2 ^ m * 2 ^ m := by
  have e : 2 ^ 64 - 2 ^ m = 2 ^ m * (2 ^ (64 - m) - 1) := by
    rw [Nat.mul_sub, ← pow_add, Nat.mul_one]
    congr 2
    omega
  apply Nat.eq_of_testBit_eq
  intro j
  rw [e, Nat.mul_comm (v / 2 ^ m), Nat.testBit_and, Nat.testBit_mul_pow_two,
    Nat.testBit_mul_pow_two, Nat.testBit_two_pow_sub_one, ← Nat.shiftRight_eq_div_pow,
    Nat.testBit_shiftRight]
  by_cases hj : m ≤ j
  · have e2 : m + (j - m) = j := by omega
    rw [e2]
    by_cases hj64 : j < 64
    · have : j - m < 64 - m := by omega
      simp [hj, this]
    · have hf : v.testBit j = false :=
        Nat.testBit_lt_two_pow (Nat.lt_of_lt_of_le hv (Nat.pow_le_pow_right (by norm_num) (by omega)))
      simp [hf]
  · simp [hj]

theorem Long.and_equals_unsigned (a b m : Nat) :
    (Long.and ⟨a, true⟩ ⟨m, true⟩).equals (Long.and ⟨b, true⟩ ⟨m, true⟩)
      = decide (a &&& m = b &&& m) := by
  simp [Long.equals, Long.and]

/-! ## Base-4 values of digit lists -/

theorem quadValue_append (l1 l2 : List Nat) :
    quadValue (l1 ++ l2) = quadValue l1 * 4 ^ l2.length + quadValue l2 := by
  simp only [quadValue, List.reverse_append, Nat.ofDigits_append, List.length_reverse]
  ring

theorem quadValue_lt (l : List Nat) (hl : ∀ d ∈ l, d < 4) : quadValue l < 4 ^ l.length := by
  have h := Nat.ofDigits_lt_base_pow_length (b := 4) (l := l.reverse) (by norm_num)
    (fun d hd => hl d (List.mem_reverse.mp hd))
  simpa [quadValue] using h

theorem quadValue_take (l : List Nat) (hl : ∀ d ∈ l, d < 4) (n : Nat) :
    quadValue l / 4 ^ (l.length - n) = quadValue (l.take n) := by
  have h := quadValue_append (l.take n) (l.drop n)
  rw [List.take_append_drop] at h
  have hlt : quadValue (l.drop n) < 4 ^ (l.length - n) := by
    have := quadValue_lt (l.drop n) (fun d hd => hl d (List.mem_of_mem_drop hd))
    simpa using this
  rw [h, List.length_drop, Nat.mul_comm, Nat.mul_add_div (Nat.pow_pos (by norm_num)),
    Nat.div_eq_of_lt hlt, Nat.add_zero]

theorem ofDigits_four_inj : ∀ (l1 l2 : List Nat), l1.length = l2.length →
    (∀ d ∈ l1, d < 4) → (∀ d ∈ l2, d < 4) → Nat.ofDigits 4 l1 = Nat.ofDigits 4 l2 → l1 = l2 := by
  intro l1
  induction l1 with
  | nil =>
    intro l2 hlen _ _ _
    exact (List.length_eq_zero.mp hlen.symm).symm
  | cons d1 t1 ih =>
    intro l2 hlen h1 h2 hv
    cases l2 with
    | nil => simp at hlen
    | cons d2 t2 =>
      have hd1 : d1 < 4 := h1 d1 (List.mem_cons_self _ _)
      have hd2 : d2 < 4 := h2 d2 (List.mem_cons_self _ _)
      rw [Nat.ofDigits_cons, Nat.ofDigits_cons] at hv
      have hd : d1 = d2 := by omega
      have ht : Nat.ofDigits 4 t1 = Nat.ofDigits 4 t2 := by omega
      have := ih t2 (by simpa using hlen) (fun d hd => h1 d (List.mem_cons_of_mem _ hd))
        (fun d hd => h2 d (List.mem_cons_of_mem _ hd)) ht
      rw [hd, this]

theorem quadValue_inj (l1 l2 : List Nat) (hlen : l1.length = l2.length)
    (h1 : ∀ d ∈ l1, d < 4) (h2 : ∀ d ∈ l2, d < 4) (hv : quadValue l1 = quadValue l2) :
    l1 = l2 := by
  have := ofDigits_four_inj l1.reverse l2.reverse (by simpa using hlen)
    (fun d hd => h1 d (List.mem_reverse.mp hd)) (fun d hd => h2 d (List.mem_reverse.mp hd)) hv
  exact List.reverse_injective this

theorem digitValue_lt (c : Char) (hc : c ∈ quadDigits) : digitValue c < 4 :=
  (parseInt_quadDigit c hc).2

theorem digitValue_inj (c1 c2 : Char) (h1 : c1 ∈ quadDigits) (h2 : c2 ∈ quadDigits)
    (h : digitValue c1 = digitValue c2) : c1 = c2 := by
  simp only [quadDigits, List.mem_cons, List.mem_singleton, List.not_mem_nil, or_false] at h1 h2
  rcases h1 with e1 | e1 | e1 | e1 <;> rcases h2 with e2 | e2 | e2 | e2 <;> subst e1 <;> subst e2 <;>
    first
    | rfl
    | (exfalso; revert h; decide)

theorem map_digitValue_inj : ∀ (l1 l2 : List Char), (∀ c ∈ l1, c ∈ quadDigits) →
    (∀ c ∈ l2, c ∈ quadDigits) → l1.map digitValue = l2.map digitValue → l1 = l2 := by
  intro l1
  induction l1 with
  | nil =>
    intro l2 _ _ h
    cases l2 with
    | nil => rfl
    | cons c t => simp at h
  | cons c1 t1 ih =>
    intro l2 h1 h2 h
    cases l2 with
    | nil => simp at h
    | cons c2 t2 =>
      simp only [List.map_cons, List.cons.injEq] at h
      have hc := digitValue_inj c1 c2 (h1 c1 (List.mem_cons_self _ _))
        (h2 c2 (List.mem_cons_self _ _)) h.1
      have ht := ih t2 (fun c hc => h1 c (List.mem_cons_of_mem _ hc))
        (fun c hc => h2 c (List.mem_cons_of_mem _ hc)) h.2
      rw [hc, ht]

theorem map_digitValue_lt (l : List Char) (hl : ∀ c ∈ l, c ∈ quadDigits) :
    ∀ d ∈ l.map digitValue, d < 4 := by
  intro d hd
  obtain ⟨c, hc, rfl⟩ := List.mem_map.mp hd
  exact digitValue_lt c (hl c hc)

/-- The packed integer of a digit string fits in 64 bits. -/
theorem packed_lt (v l : Nat) (hl : l ≤ 29) (hv : v < 4 ^ l) :
    v * 2 ^ (64 - 2 * l) + l < 2 ^ 64 := by
  have hlt : l < 2 ^ (64 - 2 * l) :=
    calc l < 2 ^ 6 := by omega
      _ ≤ 2 ^ (64 - 2 * l) := Nat.pow_le_pow_right (by norm_num) (by omega)
  have e : (2 : Nat) ^ 64 = 4 ^ l * 2 ^ (64 - 2 * l) := by
    rw [show (4 : Nat) = 2 ^ 2 by norm_num, ← pow_mul, ← pow_add]
    congr 1
    omega
  have h1 : (v + 1) * 2 ^ (64 - 2 * l) ≤ 4 ^ l * 2 ^ (64 - 2 * l) :=
    Nat.mul_le_mul_right _ hv
  rw [e]
  calc v * 2 ^ (64 - 2 * l) + l < v * 2 ^ (64 - 2 * l) + 2 ^ (64 - 2 * l) := by omega
    _ = (v + 1) * 2 ^ (64 - 2 * l) := by ring
    _ ≤ 4 ^ l * 2 ^ (64 - 2 * l) := h1

/-! ## Tiles and their quadkey strings -/

theorem tileDigit_lt (x y j : Nat) : tileDigit x y j < 4 := by
  unfold tileDigit
  omega

theorem tileSum_lt (x y : Nat) : ∀ z, ∑ j in Finset.range z, tileDigit x y j * 4 ^ j < 4 ^ z := by
  intro z
  induction z with
  | zero => simp
  | succ z ih =>
    rw [Finset.sum_range_succ, pow_succ]
    have h : tileDigit x y z * 4 ^ z ≤ 3 * 4 ^ z :=
      Nat.mul_le_mul_right _ (by have := tileDigit_lt x y z; omega)
    omega

theorem tileSum_reflect (x y z : Nat) (hz : z ≤ 32) :
    ∑ i in Finset.range z, tileDigit x y (z - 1 - i) * 2 ^ (62 - 2 * i)
      = (∑ j in Finset.range z, tileDigit x y j * 4 ^ j) * 2 ^ (64 - 2 * z) := by
  rw [Finset.sum_mul, ← Finset.sum_range_reflect]
  apply Finset.sum_congr rfl
  intro i hi
  have hi' : i < z := Finset.mem_range.mp hi
  have e1 : z - 1 - (z - 1 - i) = i := by omega
  have e2 : 62 - 2 * (z - 1 - i) = 2 * i + (64 - 2 * z) := by omega
  rw [e1, e2, Nat.mul_assoc, show (4 : Nat) = 2 ^ 2 by norm_num, ← pow_mul, ← pow_add]

theorem quadValue_cons (d : Nat) (l : List Nat) :
    quadValue (d :: l) = d * 4 ^ l.length + quadValue l := by
  have h := quadValue_append [d] l
  simpa [quadValue] using h

theorem quadValue_range_reflect (f : Nat → Nat) :
    ∀ n, quadValue ((List.range n).map (fun i => f (n - 1 - i)))
      = ∑ j in Finset.range n, f j * 4 ^ j := by
  intro n
  induction n with
  | zero => simp [quadValue]
  | succ n ih =>
    rw [List.range_succ_eq_map, List.map_cons, List.map_map, quadValue_cons,
      Finset.sum_range_succ, List.length_map, List.length_range]
    have e : ((fun i => f (n + 1 - 1 - i)) ∘ Nat.succ) = fun i => f (n - 1 - i) := by
      funext i
      simp only [Function.comp, Nat.succ_eq_add_one]
      congr 1
      omega
    rw [e, ih]
    simp only [Nat.add_sub_cancel, Nat.sub_zero]
    omega

theorem digitValue_ofNat (d : Nat) (hd : d < 4) :
    digitValue (Char.ofNat (48 + d)) = d ∧ Char.ofNat (48 + d) ∈ quadDigits := by
  interval_cases d <;> exact ⟨rfl, by decide⟩

theorem tileQuadkey_data (x y z : Nat) :
    (tileQuadkey x y z).length = z
      ∧ (∀ c ∈ (tileQuadkey x y z).data, c ∈ quadDigits)
      ∧ (tileQuadkey x y z).data.map digitValue
          = (List.range z).map (fun i => tileDigit x y (z - 1 - i)) := by
  refine ⟨by simp [tileQuadkey, String.length], ?_, ?_⟩
  · intro c hc
    simp only [tileQuadkey, List.mem_map, List.mem_range] at hc
    obtain ⟨i, _, rfl⟩ := hc
    exact (digitValue_ofNat _ (tileDigit_lt x y _)).2
  · simp only [tileQuadkey, List.map_map]
    apply List.map_congr_left
    intro i _
    exact (digitValue_ofNat _ (tileDigit_lt x y _)).1

/-! ## Prefixes under the masks -/

theorem packed_div (v l : Nat) (hl : l ≤ 29) : (v * 2 ^ (64 - 2 * l) + l) / 2 ^ (64 - 2 * l) = v := by
  have hlt : l < 2 ^ (64 - 2 * l) :=
    calc l < 2 ^ 6 := by omega
      _ ≤ 2 ^ (64 - 2 * l) := Nat.pow_le_pow_right (by norm_num) (by omega)
  rw [Nat.mul_comm, Nat.mul_add_div (Nat.two_pow_pos _), Nat.div_eq_of_lt hlt, Nat.add_zero]

theorem prefix_iff_masked_eq (la lb : List Char) (hla : ∀ c ∈ la, c ∈ quadDigits)
    (hlb : ∀ c ∈ lb, c ∈ quadDigits) (hlt : la.length < lb.length) (hlb23 : lb.length ≤ 29) :
    (quadValue (la.map digitValue) * 2 ^ (64 - 2 * la.length) + la.length)
          &&& (2 ^ 64 - 2 ^ (64 - 2 * la.length))
        = (quadValue (lb.map digitValue) * 2 ^ (64 - 2 * lb.length) + lb.length)
          &&& (2 ^ 64 - 2 ^ (64 - 2 * la.length))
      ↔ la <+: lb := by
  have hda := map_digitValue_lt la hla
  have hdb := map_digitValue_lt lb hlb
  have hA := packed_lt (quadValue (la.map digitValue)) la.length (by omega)
    (by simpa using quadValue_lt _ hda)
  have hB := packed_lt (quadValue (lb.map digitValue)) lb.length (by omega)
    (by simpa using quadValue_lt _ hdb)
  have hdivA := packed_div (quadValue (la.map digitValue)) la.length (by omega)
  have hpow : (2 : Nat) ^ (64 - 2 * la.length)
      = 2 ^ (64 - 2 * lb.length) * 4 ^ (lb.length - la.length) := by
    rw [show (4 : Nat) = 2 ^ 2 by norm_num, ← pow_mul, ← pow_add]
    congr 1
    omega
  have hdivB : (quadValue (lb.map digitValue) * 2 ^ (64 - 2 * lb.length) + lb.length)
      / 2 ^ (64 - 2 * la.length) = quadValue ((lb.take la.length).map digitValue) := by
    rw [hpow, ← Nat.div_div_eq_div_mul, packed_div _ _ hlb23, List.map_take]
    have := quadValue_take (lb.map digitValue) hdb la.length
    rwa [List.length_map] at this
  rw [and_prefix_mask _ _ hA (by omega), and_prefix_mask _ _ hB (by omega), hdivA, hdivB]
  constructor
  · intro h
    have hv := Nat.eq_of_mul_eq_mul_right (Nat.two_pow_pos _) h
    have hlen : (la.map digitValue).length = ((lb.take la.length).map digitValue).length := by
      rw [List.length_map, List.length_map, List.length_take]
      omega
    have hd := quadValue_inj _ _ hlen hda
      (map_digitValue_lt _ (fun c hc => hlb c (List.mem_of_mem_take hc))) hv
    have hdata := map_digitValue_inj _ _ hla (fun c hc => hlb c (List.mem_of_mem_take hc)) hd
    exact List.prefix_iff_eq_take.mpr hdata
  · intro h
    have hdata := List.prefix_iff_eq_take.mp h
    rw [← hdata]

/-! ## The zoom bits never exceed the zoom field -/

theorem or_mod_two_pow (a b n : Nat) : (a ||| b) % 2 ^ n = a % 2 ^ n ||| b % 2 ^ n := by
  apply Nat.eq_of_testBit_eq
  intro i
  simp only [Nat.testBit_mod_two_pow, Nat.testBit_or, Bool.and_or_distrib_left]

theorem mod_two_pow_of_le (r m n : Nat) (hmn : m ≤ n) (h : r % 2 ^ n = 0) : r % 2 ^ m = 0 :=
  Nat.mod_eq_zero_of_dvd
    (Nat.dvd_trans (Nat.pow_dvd_pow 2 hmn) (Nat.dvd_of_mod_eq_zero h))

theorem BinaryQuadkey.getZoom_eq_mod (q : BinaryQuadkey) :
    q.getZoom = ((q.UInt64Quadkey.bits % 2 ^ 5 : Nat) : Int) := by
  have h31 : Long.fromNumber 31 = ⟨2 ^ 5 - 1, false⟩ := Long.fromNumber_of_lt 31 (by norm_num)
  have hlt : q.UInt64Quadkey.bits % 2 ^ 5 < 2 ^ 5 := Nat.mod_lt _ (by norm_num)
  have h32 : q.UInt64Quadkey.bits % 2 ^ 5 % 2 ^ 32 = q.UInt64Quadkey.bits % 2 ^ 5 :=
    Nat.mod_eq_of_lt (by omega)
  have hn31 : ¬ 2 ^ 31 ≤ q.UInt64Quadkey.bits % 2 ^ 5 := by omega
  unfold getZoom Long.toInt
  simp only [h31, Long.and, Nat.and_pow_two_sub_one_eq_mod, h32]
  cases q.UInt64Quadkey.unsigned
  · simp only [Bool.false_eq_true, if_false, if_neg hn31]
  · simp only [if_true]

theorem low5_le (r z : Nat) (hz : z ≤ 30) (h : r % 2 ^ (64 - 2 * z) = 0) :
    (r ||| z) % 2 ^ 5 ≤ z := by
  rw [or_mod_two_pow]
  by_cases h29 : z ≤ 29
  · have h5 : r % 2 ^ 5 = 0 := mod_two_pow_of_le r 5 _ (by omega) h
    rw [h5, Nat.zero_or]
    exact Nat.mod_le _ _
  · have hz30 : z = 30 := by omega
    subst hz30
    have h4 : r % 2 ^ 4 = 0 := mod_two_pow_of_le r 4 _ (by omega) h
    have hc : r % 2 ^ 5 = 0 ∨ r % 2 ^ 5 = 16 := by omega
    rcases hc with e | e <;> rw [e] <;> decide

theorem BinaryQuadkey.getZoom_new_le (x y zoom : Option Nat) :
    (new x y zoom none).getZoom ≤ ((new x y zoom none).zoom : Int) := by
  rw [getZoom_eq_mod]
  obtain ⟨z, hz⟩ : ∃ z, z = zoom.getD 0 := ⟨_, rfl⟩
  simp only [new, Option.getD_none, ← hz]
  by_cases h30 : z ≤ 30
  · have h0 : Long.UZERO = ⟨0 * 2 ^ (64 - 2 * (z - z)), true⟩ := by
      rw [Nat.zero_mul]
      exact Long.fromInt_of_lt 0 true (by norm_num)
    unfold fromTileXY
    rw [h0, fromTileXYLoop_bits _ _ z (by omega) true z 0 (le_refl z),
      Long.fromNumber_of_lt z (by omega)]
    simp only [Long.or]
    have := low5_le ((0 * 4 ^ z + ∑ j in Finset.range z,
      tileDigit (x.getD 0) (y.getD 0) j * 4 ^ j) * 2 ^ (64 - 2 * z)) z h30 (Nat.mul_mod_left _ _)
    omega
  · have : (fromTileXY (x.getD 0) (y.getD 0) z).bits % 2 ^ 5 < 2 ^ 5 := Nat.mod_lt _ (by norm_num)
    omega

theorem Long.shiftLeft_mod (a : Long) (p m : Nat) (hp : p < 64) (hm : m ≤ p) :
    (a.shiftLeft (p : Int)).bits % 2 ^ m = 0 := by
  have hn : ((p : Int) % 64).toNat = p := by omega
  unfold Long.shiftLeft
  simp only [hn]
  split
  · next h0 =>
    have : m = 0 := by omega
    subst this
    rw [Nat.pow_zero]
    exact Nat.mod_one _
  · rw [Nat.shiftLeft_eq]
    apply Nat.mod_eq_zero_of_dvd
    apply (Nat.dvd_mod_iff (Nat.pow_dvd_pow 2 (by omega : m ≤ 64))).mpr
    exact Nat.dvd_trans (Nat.pow_dvd_pow 2 hm) (Nat.dvd_mul_left _ _)

theorem BinaryQuadkey.fromQuadkeyBody_or (s : String) (r : Long) (i : Nat) :
    (fromQuadkeyBody s r i).bits
      = r.bits ||| ((Long.fromInt (parseInt (s.data.get? i)) false).shiftLeft
          (64 - (((i : Int) + 1) * 2))).bits :=
  rfl

theorem BinaryQuadkey.fromQuadkey_fold_mod (s : String) :
    ∀ n, n ≤ 32 →
      ((List.range n).foldl (fromQuadkeyBody s) Long.UZERO).bits % 2 ^ (64 - 2 * n) = 0 := by
  intro n
  induction n with
  | zero =>
    intro _
    rfl
  | succ n ih =>
    intro hn
    rw [List.range_succ, List.foldl_append]
    simp only [List.foldl_cons, List.foldl_nil]
    have e1 : (64 - (((n : Int) + 1) * 2) : Int) = ((64 - 2 * (n + 1) : Nat) : Int) := by omega
    rw [fromQuadkeyBody_or, e1, or_mod_two_pow,
      mod_two_pow_of_le _ (64 - 2 * (n + 1)) (64 - 2 * n) (by omega) (ih (by omega)),
      Long.shiftLeft_mod _ _ _ (by omega) (le_refl _)]
    rfl

theorem BinaryQuadkey.fromUInt64_some (v : Long) (z : Nat) (hz : z ≠ 0) :
    fromUInt64 v (some z) = ⟨0, 0, z, v⟩ := by
  simp [fromUInt64, new, hz]

theorem BinaryQuadkey.getZoom_fromQuadkey_le (s : String) :
    (fromQuadkey s).getZoom ≤ ((fromQuadkey s).zoom : Int) := by
  by_cases h0 : s.length = 0
  · have hs : s = "" := by
      obtain ⟨l⟩ := s
      exact congrArg String.mk (List.length_eq_zero.mp h0)
    subst hs
    decide
  · rw [getZoom_eq_mod]
    unfold fromQuadkey
    rw [fromUInt64_some _ _ h0]
    simp only
    by_cases h30 : s.length ≤ 30
    · rw [Long.fromNumber_of_lt _ (by omega)]
      simp only [Long.or]
      have := low5_le _ s.length h30 (fromQuadkey_fold_mod s s.length (by omega))
      omega
    · have : ∀ r : Nat, r % 2 ^ 5 < 2 ^ 5 := fun r => Nat.mod_lt _ (by norm_num)
      have := this (((List.range s.length).foldl (fromQuadkeyBody s) Long.UZERO).or
        (Long.fromNumber s.length)).bits
      omega

theorem BinaryQuadkey.getZoom_fromUInt64_le (v : Long) :
    (fromUInt64 v none).getZoom ≤ ((fromUInt64 v none).zoom : Int) := by
  have h : (fromUInt64 v none).zoom = ((fromUInt64 v none).getZoom).toNat := by
    simp [fromUInt64, new, getZoom]
  rw [h]
  exact Int.self_le_toNat _

theorem Constructed.getZoom_le (q : BinaryQuadkey) (h : Constructed q) :
    q.getZoom ≤ (q.zoom : Int) := by
  cases h with
  | ofNew x y zoom => exact getZoom_new_le x y zoom
  | ofQuadkey s => exact getZoom_fromQuadkey_le s
  | ofUInt64 v => exact getZoom_fromUInt64_le v
  | ofUInt64Zoom v zoom h =>
    by_cases hz : zoom = 0
    · subst hz
      exact getZoom_fromUInt64_le v
    · rw [fromUInt64_some v zoom hz]
      exact h
  | ofBits low high => exact getZoom_fromUInt64_le _

/-! ## Strings that hold other characters -/

theorem BinaryQuadkey.fromQuadkey_fold_unsigned (s : String) (is : List Nat) :
    ∀ r : Long, (is.foldl (fromQuadkeyBody s) r).unsigned = r.unsigned := by
  induction is with
  | nil => intro r; rfl
  | cons i t ih => intro r; rw [List.foldl_cons, ih]; rfl

theorem Long.fromInt_parseInt_zeroNonDigits (c : Option Char) :
    Long.fromInt (parseInt (c.map (fun c => if c.isDigit then c else '0'))) false
      = Long.fromInt (parseInt c) false := by
  cases c with
  | none => rfl
  | some c =>
    by_cases h : c.isDigit = true
    · simp [h]
    · have h0 : parseInt (some '0') = some 0 := rfl
      simp only [Option.map_some', h, if_false, h0, parseInt]
      rfl

theorem BinaryQuadkey.fromQuadkeyBody_zeroNonDigits (s : String) :
    fromQuadkeyBody (zeroNonDigits s) = fromQuadkeyBody s := by
  funext r i
  unfold fromQuadkeyBody zeroNonDigits
  simp only [List.get?_eq_getElem?, List.getElem?_map, Long.fromInt_parseInt_zeroNonDigits]

theorem BinaryQuadkey.fromQuadkey_zeroNonDigits (s : String) :
    fromQuadkey (zeroNonDigits s) = fromQuadkey s := by
  have hlen : (zeroNonDigits s).length = s.length := by
    obtain ⟨l⟩ := s
    exact List.length_map _ _
  unfold fromQuadkey
  rw [fromQuadkeyBody_zeroNonDigits, hlen]

/-! ## The claims -/

/-- C1: `toQuadkey` should invert `fromQuadkey` on every digit string of length
0..23.  At the string "2" it does not: the first digit lies in bits 63 and 62,
`shiftRight` copies the set bit 63 into the vacated bits, and the numeral of
`4294967294` is appended in place of the character '2'. -/
theorem C1_toQuadkey_fromQuadkey_two :
    (fromQuadkey "2").toQuadkey = "4294967294" ∧ (fromQuadkey "2").toQuadkey ≠ "2" := by
  decide

/-- C2: for a key of zoom field 2 whose packed integer has bit 63 set, here
`fromBits(2, 0xE0000000)`, `toQuadkey` should give the 2 characters "32" read
from the top bit pairs; it gives a string of 11 characters. -/
theorem C2_toQuadkey_bit63 :
    (fromBits 2 0xE0000000).zoom = 2
      ∧ (fromBits 2 0xE0000000).UInt64Quadkey.bits / 2 ^ 62 % 4 = 3
      ∧ (fromBits 2 0xE0000000).UInt64Quadkey.bits / 2 ^ 60 % 4 = 2
      ∧ (fromBits 2 0xE0000000).toQuadkey = "42949672952"
      ∧ (fromBits 2 0xE0000000).toQuadkey.length = 11 := by
  decide

/-- C3: the tile `x = 1, y = 1` at zoom 1 has the standard quadkey "3";
`new BinaryQuadkey(1, 1, 1).toQuadkey()` is "4294967295". -/
theorem C3_toQuadkey_tile :
    tileQuadkey 1 1 1 = "3"
      ∧ (new (some 1) (some 1) (some 1) none).toQuadkey = "4294967295" := by
  decide

/-- C4 (packing law): for zoom `z` in [0,23] and `x`, `y` in `[0, 2^z)`,
`fromTileXY(x, y, z)` is the unsigned 64-bit integer
`z + Σ_{i<z} d_i * 2^(62-2i)` with `d_i = 2 * bit(y, z-1-i) + bit(x, z-1-i)`,
and its low 5 bits hold `z`. -/
theorem C4_fromTileXY_packing (x y z : Nat) (hz : z ≤ 23) (_ : x < 2 ^ z) (_ : y < 2 ^ z) :
    fromTileXY x y z
        = ⟨z + ∑ i in Finset.range z,
            (2 * (y / 2 ^ (z - 1 - i) % 2) + x / 2 ^ (z - 1 - i) % 2) * 2 ^ (62 - 2 * i), true⟩
      ∧ (fromTileXY x y z).bits < 2 ^ 64
      ∧ (fromTileXY x y z).bits % 2 ^ 5 = z := by
  have h := fromTileXY_eq x y z (by omega)
  have hr := tileSum_reflect x y z (by omega)
  simp only [tileDigit] at hr
  refine ⟨?_, ?_, ?_⟩
  · rw [h, hr, Nat.add_comm]
    rfl
  · rw [h]
    exact packed_lt _ z (by omega) (tileSum_lt x y z)
  · rw [h]
    exact packed_mod _ _ z (by omega) (by omega)

/-- C4 at the tile of the acceptance tests, `x = 29, y = 50, zoom = 7`. -/
theorem C4_fromTileXY_packing_witness :
    (29 < 2 ^ 7 ∧ 50 < 2 ^ 7)
      ∧ fromTileXY 29 50 7
        = ⟨7 + ∑ i in Finset.range 7,
            (2 * (50 / 2 ^ (7 - 1 - i) % 2) + 29 / 2 ^ (7 - 1 - i) % 2) * 2 ^ (62 - 2 * i), true⟩ :=
  ⟨by decide, (C4_fromTileXY_packing 29 50 7 (by decide) (by decide) (by decide)).1⟩

/-- C7 (the constructors agree): for zoom `z` in [1,23] and `x`, `y` in
`[0, 2^z)`, with `s` the standard quadkey string of the tile,
`new BinaryQuadkey(x, y, z).equals(fromQuadkey(s))` is true: both hold the same
packed integer. -/
theorem C7_constructors_agree (x y z : Nat) (_ : 1 ≤ z) (hz : z ≤ 23) (_ : x < 2 ^ z)
    (_ : y < 2 ^ z) :
    (new (some x) (some y) (some z) none).equals (fromQuadkey (tileQuadkey x y z)) = true
      ∧ (new (some x) (some y) (some z) none).UInt64Quadkey
          = (fromQuadkey (tileQuadkey x y z)).UInt64Quadkey := by
  obtain ⟨hlen, hdig, hmap⟩ := tileQuadkey_data x y z
  have hq := fromQuadkey_eq (tileQuadkey x y z) hdig (by omega)
  have ht := fromTileXY_eq x y z (by omega)
  have hv := quadValue_range_reflect (tileDigit x y) z
  have e : (new (some x) (some y) (some z) none).UInt64Quadkey
      = (fromQuadkey (tileQuadkey x y z)).UInt64Quadkey := by
    rw [hq, hmap, hv, hlen]
    simpa [new] using ht
  refine ⟨?_, e⟩
  unfold equals
  rw [e]
  simp [Long.equals]

/-- C7 at the tile of the documentation, `x = 35210, y = 21493, zoom = 16`. -/
theorem C7_constructors_agree_witness :
    (1 ≤ 16 ∧ 16 ≤ 23 ∧ 35210 < 2 ^ 16 ∧ 21493 < 2 ^ 16)
      ∧ (new (some 35210) (some 21493) (some 16) none).equals
          (fromQuadkey (tileQuadkey 35210 21493 16)) = true :=
  ⟨by decide, (C7_constructors_agree 35210 21493 16 (by decide) (by decide) (by decide)
    (by decide)).1⟩

/-- C8 (the encoding is injective and `equals` decides it): for digit strings
`a`, `b` of length at most 23, `fromQuadkey(a).equals(fromQuadkey(b))` is true
if and only if `a = b`. -/
theorem C8_equals_iff_eq (a b : String) (ha : ∀ c ∈ a.data, c ∈ quadDigits)
    (hb : ∀ c ∈ b.data, c ∈ quadDigits) (hla : a.length ≤ 23) (hlb : b.length ≤ 23) :
    (fromQuadkey a).equals (fromQuadkey b) = true ↔ a = b := by
  constructor
  · intro h
    rw [fromQuadkey_eq a ha (by omega), fromQuadkey_eq b hb (by omega)] at h
    simp only [equals, Long.equals, ne_eq, not_true_eq_false, false_and, if_false,
      decide_eq_true_eq] at h
    have hma := packed_mod (quadValue (a.data.map digitValue)) (64 - 2 * a.length) a.length
      (by omega) (by omega)
    have hmb := packed_mod (quadValue (b.data.map digitValue)) (64 - 2 * b.length) b.length
      (by omega) (by omega)
    have hlen : a.length = b.length := by rw [← hma, ← hmb, h]
    rw [hlen] at h
    have hv : quadValue (a.data.map digitValue) = quadValue (b.data.map digitValue) :=
      Nat.eq_of_mul_eq_mul_right (Nat.two_pow_pos _) (Nat.add_right_cancel h)
    have hlen' : (a.data.map digitValue).length = (b.data.map digitValue).length := by
      rw [List.length_map, List.length_map]
      exact hlen
    have hd := quadValue_inj _ _ hlen' (map_digitValue_lt _ ha) (map_digitValue_lt _ hb) hv
    have hdata := map_digitValue_inj _ _ ha hb hd
    obtain ⟨la⟩ := a
    obtain ⟨lb⟩ := b
    exact congrArg String.mk hdata
  · intro h
    subst h
    simp [equals, Long.equals]

/-- C8 at the strings of the acceptance test: a key differs from its prefix. -/
theorem C8_equals_iff_eq_witness :
    ((∀ c ∈ "02103201302".data, c ∈ quadDigits) ∧ (∀ c ∈ "0210320130".data, c ∈ quadDigits)
        ∧ "02103201302".length ≤ 23 ∧ "0210320130".length ≤ 23)
      ∧ ((fromQuadkey "02103201302").equals (fromQuadkey "0210320130") = true
          ↔ "02103201302" = "0210320130") :=
  ⟨by decide, C8_equals_iff_eq "02103201302" "0210320130" (by decide) (by decide) (by decide)
    (by decide)⟩

/-- C5: for digit strings `a`, `b` of length at most 23,
`fromQuadkey(a).isParentOf(fromQuadkey(b))` returns a boolean, which is true if
and only if `a` is a proper prefix of `b`. -/
theorem C5_isParentOf_fromQuadkey (a b : String) (ha : ∀ c ∈ a.data, c ∈ quadDigits)
    (hb : ∀ c ∈ b.data, c ∈ quadDigits) (hla : a.length ≤ 23) (hlb : b.length ≤ 23) :
    ∃ r, (fromQuadkey a).isParentOf (fromQuadkey b) = some r
      ∧ (r = true ↔ (a.length < b.length ∧ a.data <+: b.data)) := by
  rw [fromQuadkey_eq a ha (by omega), fromQuadkey_eq b hb (by omega)]
  unfold isParentOf
  rw [getZoom_eq _ _ _ _ _ _ _ (by omega) (by omega)]
  by_cases hle : b.length ≤ a.length
  · refine ⟨false, ?_, ?_⟩
    · have : (b.length : Int) ≤ (a.length : Int) := by omega
      simp [this]
    · constructor
      · intro h
        exact absurd h (by decide)
      · intro h
        omega
  · have hlt : a.length < b.length := by omega
    have hnle : ¬ (b.length : Int) ≤ (a.length : Int) := by omega
    simp only [hnle, if_false, PREFIX_MASKS_eq a.length hla, Long.and_equals_unsigned]
    refine ⟨_, rfl, ?_⟩
    rw [decide_eq_true_eq]
    obtain ⟨la⟩ := a
    obtain ⟨lb⟩ := b
    simp only [String.length] at hlt hlb ⊢
    rw [prefix_iff_masked_eq la lb ha hb hlt (by omega)]
    exact ⟨fun h => ⟨hlt, h⟩, fun h => h.2⟩

/-- C5 at the strings of the acceptance test. -/
theorem C5_isParentOf_fromQuadkey_witness :
    ((∀ c ∈ "02103201302".data, c ∈ quadDigits)
        ∧ (∀ c ∈ "0210320130212302".data, c ∈ quadDigits)
        ∧ "02103201302".length ≤ 23 ∧ "0210320130212302".length ≤ 23)
      ∧ ∃ r, (fromQuadkey "02103201302").isParentOf (fromQuadkey "0210320130212302") = some r
        ∧ (r = true ↔ ("02103201302".length < "0210320130212302".length
            ∧ "02103201302".data <+: "0210320130212302".data)) :=
  ⟨by decide, C5_isParentOf_fromQuadkey "02103201302" "0210320130212302" (by decide)
    (by decide) (by decide) (by decide)⟩

/-- C6, refuted as stated: `fromQuadkey` raises no error on the string "a3",
whose first character is not a digit; it returns the key that it returns for
"03". -/
theorem C6_fromQuadkey_returns :
    ('a' ∈ "a3".data ∧ 'a' ∉ quadDigits)
      ∧ fromQuadkey "a3" = ⟨0, 0, 2, ⟨0x3000000000000002, true⟩⟩
      ∧ fromQuadkey "a3" = fromQuadkey "03" :=
  have h1 : fromQuadkey "a3" = ⟨0, 0, 2, ⟨0x3000000000000002, true⟩⟩ := by decide
  have h2 : fromQuadkey "03" = ⟨0, 0, 2, ⟨0x3000000000000002, true⟩⟩ := by decide
  ⟨⟨by decide, by decide⟩, h1, h1.trans h2.symm⟩

/-- C6, amended: `fromQuadkey` validates nothing.  For every string that holds
a character outside 0..3 it returns a BinaryQuadkey: the zoom field is the
length of the string, `x` and `y` are 0, the packed integer is unsigned, and a
character that is not a decimal digit contributes the same bits as the
character 0. -/
theorem C6_fromQuadkey_unvalidated (s : String) (h : ∃ c ∈ s.data, c ∉ quadDigits) :
    (fromQuadkey s).zoom = s.length ∧ (fromQuadkey s).x = 0 ∧ (fromQuadkey s).y = 0
      ∧ (fromQuadkey s).UInt64Quadkey.unsigned = true
      ∧ fromQuadkey s = fromQuadkey (zeroNonDigits s) := by
  have h0 : s.length ≠ 0 := by
    obtain ⟨c, hc, _⟩ := h
    obtain ⟨l⟩ := s
    intro hl
    have : l = [] := List.length_eq_zero.mp hl
    subst this
    simp at hc
  refine ⟨?_, ?_, ?_, ?_, (fromQuadkey_zeroNonDigits s).symm⟩
  · unfold fromQuadkey
    rw [fromUInt64_some _ _ h0]
  · unfold fromQuadkey
    rw [fromUInt64_some _ _ h0]
  · unfold fromQuadkey
    rw [fromUInt64_some _ _ h0]
  · unfold fromQuadkey
    rw [fromUInt64_some _ _ h0]
    simp only [Long.or, fromQuadkey_fold_unsigned]
    rfl

/-- C6 (amended) at the string "a3". -/
theorem C6_fromQuadkey_unvalidated_witness :
    (∃ c ∈ "a3".data, c ∉ quadDigits)
      ∧ (fromQuadkey "a3").zoom = "a3".length
      ∧ fromQuadkey "a3" = fromQuadkey (zeroNonDigits "a3") :=
  have h : ∃ c ∈ "a3".data, c ∉ quadDigits := ⟨'a', by decide, by decide⟩
  ⟨h, (C6_fromQuadkey_unvalidated "a3" h).1, (C6_fromQuadkey_unvalidated "a3" h).2.2.2.2⟩

/-- C9, refuted as stated: `fromUInt64(v, 1)` with `v = 2`, whose low 5 bits
say zoom 2, gives a key that is its own parent. -/
theorem C9_isParentOf_self_true :
    (fromUInt64 (Long.fromBits 2 0 true) (some 1)).isParentOf
      (fromUInt64 (Long.fromBits 2 0 true) (some 1)) = some true := by
  decide

/-- C9, amended: for every key `q` given by `new BinaryQuadkey(x, y, zoom)`,
`fromQuadkey`, `fromUInt64` without a zoom, `fromBits`, or `fromUInt64` with a
zoom that is not below the low 5 bits of the value, `q.isParentOf(q)` returns
false. -/
theorem C9_isParentOf_self_false (q : BinaryQuadkey) (h : Constructed q) :
    q.isParentOf q = some false := by
  have hz := Constructed.getZoom_le q h
  unfold isParentOf
  rw [if_pos hz]

/-- C9 (amended) at a key read from a packed integer with bit 63 set. -/
theorem C9_isParentOf_self_false_witness :
    Constructed (fromBits 11 0xE4E1C9B2)
      ∧ (fromBits 11 0xE4E1C9B2).isParentOf (fromBits 11 0xE4E1C9B2) = some false :=
  ⟨Constructed.ofBits 11 0xE4E1C9B2,
    C9_isParentOf_self_false (fromBits 11 0xE4E1C9B2) (Constructed.ofBits 11 0xE4E1C9B2)⟩

/-- C10, refuted as stated: two keys built by `fromUInt64` with the explicit
zoom 1 from the values 3 and 2 are each the parent of the other. -/
theorem C10_isParentOf_both_true :
    (fromUInt64 (Long.fromBits 3 0 true) (some 1)).isParentOf
        (fromUInt64 (Long.fromBits 2 0 true) (some 1)) = some true
      ∧ (fromUInt64 (Long.fromBits 2 0 true) (some 1)).isParentOf
        (fromUInt64 (Long.fromBits 3 0 true) (some 1)) = some true := by
  decide

/-- C10, amended: for keys `A`, `B` given by `new BinaryQuadkey(x, y, zoom)`,
`fromQuadkey`, `fromUInt64` without a zoom, `fromBits`, or `fromUInt64` with a
zoom that is not below the low 5 bits of the value, if `A.isParentOf(B)` is
true then `B.isParentOf(A)` returns false. -/
theorem C10_isParentOf_antisymm (A B : BinaryQuadkey) (hA : Constructed A) (hB : Constructed B)
    (h : A.isParentOf B = some true) : B.isParentOf A = some false := by
  have hzA := Constructed.getZoom_le A hA
  have hzB := Constructed.getZoom_le B hB
  have hlt : ¬ B.getZoom ≤ (A.zoom : Int) := by
    intro hle
    unfold isParentOf at h
    rw [if_pos hle] at h
    exact absurd h (by decide)
  have hle : A.getZoom ≤ (B.zoom : Int) := by omega
  unfold isParentOf
  rw [if_pos hle]

/-- C10 (amended) at the keys of the strings "0" and "01". -/
theorem C10_isParentOf_antisymm_witness :
    (Constructed (fromQuadkey "0") ∧ Constructed (fromQuadkey "01")
        ∧ (fromQuadkey "0").isParentOf (fromQuadkey "01") = some true)
      ∧ (fromQuadkey "01").isParentOf (fromQuadkey "0") = some false :=
  ⟨⟨Constructed.ofQuadkey "0", Constructed.ofQuadkey "01", by decide⟩,
    C10_isParentOf_antisymm (fromQuadkey "0") (fromQuadkey "01") (Constructed.ofQuadkey "0")
      (Constructed.ofQuadkey "01") (by decide)⟩

/-! ## The claims on zoom, bytes and halves -/

theorem signed_byte (u : Nat) (hu : u < 2 ^ 32) (a : Int)
    (ha : a = if 2 ^ 31 ≤ u then (u : Int) - 2 ^ 32 else (u : Int)) :
    (a % 256).toNat = u % 256 ∧ ((a >>> (8 : Nat)) % 256).toNat = u / 2 ^ 8 % 256
      ∧ ((a >>> (16 : Nat)) % 256).toNat = u / 2 ^ 16 % 256
      ∧ ((a >>> (24 : Nat)) % 256).toNat = u / 2 ^ 24 % 256 := by
  simp only [Int.shiftRight_eq_div_pow]
  by_cases h : 2 ^ 31 ≤ u
  · rw [if_pos h] at ha
    subst ha
    refine ⟨?_, ?_, ?_, ?_⟩ <;> omega
  · rw [if_neg h] at ha
    subst ha
    refine ⟨?_, ?_, ?_, ?_⟩ <;> omega

/-- C12: for zoom `z` in [0,23] and all `x`, `y`, the key
`new BinaryQuadkey(x, y, z)` has `getZoom() = z = zoom`: the low 5 bits of the
packed integer hold `z`, the loop of `fromTileXY` writes no bit below bit
`64 - 2z`, and the packed integer is the sum of the quadrant bits and `z`. -/
theorem C12_new_getZoom (x y z : Nat) (hz : z ≤ 23) :
    (new (some x) (some y) (some z) none).getZoom = (z : Int)
      ∧ (new (some x) (some y) (some z) none).zoom = z
      ∧ (new (some x) (some y) (some z) none).UInt64Quadkey.bits % 2 ^ 5 = z
      ∧ (fromTileXYLoop x y z z Long.UZERO).bits % 2 ^ (64 - 2 * z) = 0
      ∧ (new (some x) (some y) (some z) none).UInt64Quadkey.bits
          = (fromTileXYLoop x y z z Long.UZERO).bits + z := by
  have h0 : Long.UZERO = ⟨0 * 2 ^ (64 - 2 * (z - z)), true⟩ := by
    rw [Nat.zero_mul]
    exact Long.fromInt_of_lt 0 true (by norm_num)
  have hl := fromTileXYLoop_bits x y z (by omega) true z 0 (le_refl z)
  rw [← h0] at hl
  have ht := fromTileXY_eq x y z (by omega)
  have hn : new (some x) (some y) (some z) none = ⟨x, y, z, fromTileXY x y z⟩ := rfl
  rw [hn, ht, hl]
  refine ⟨?_, rfl, ?_, ?_, ?_⟩
  · exact getZoom_eq _ _ _ _ _ _ _ (by omega) (by omega)
  · exact packed_mod _ _ z (by omega) (by omega)
  · exact Nat.mul_mod_left _ _
  · simp only [Nat.zero_mul, Nat.zero_add]

/-- C12 at the tile of the acceptance test `getZoom`. -/
theorem C12_new_getZoom_witness :
    16 ≤ 23 ∧ (new (some 35210) (some 21493) (some 16) none).getZoom = (16 : Int) :=
  ⟨by decide, (C12_new_getZoom 35210 21493 16 (by decide)).1⟩

/-- C13: for every key whose packed integer is a 64-bit value, `toBuffer()` is
a sequence of exactly 8 bytes, each in [0,255], and reading them big-endian,
`Σ_{k<8} b_k * 256^(7-k)`, gives the packed integer back. -/
theorem C13_toBuffer_big_endian (q : BinaryQuadkey) (h : q.UInt64Quadkey.bits < 2 ^ 64) :
    q.toBuffer.length = 8
      ∧ (∀ b ∈ q.toBuffer, b < 256)
      ∧ ∑ k in Finset.range 8, q.toBuffer.getD k 0 * 256 ^ (7 - k) = q.UInt64Quadkey.bits := by
  obtain ⟨n, hn⟩ : ∃ n, n = q.UInt64Quadkey.bits := ⟨_, rfl⟩
  rw [← hn] at h
  have hlo := signed_byte (n % 2 ^ 32) (Nat.mod_lt _ (by norm_num)) q.UInt64Quadkey.low
    (by rw [hn]; rfl)
  have hhi := signed_byte (n / 2 ^ 32 % 2 ^ 32) (Nat.mod_lt _ (by norm_num)) q.UInt64Quadkey.high
    (by rw [hn]; rfl)
  obtain ⟨l0, l1, l2, l3⟩ := hlo
  obtain ⟨h0, h1, h2, h3⟩ := hhi
  unfold toBuffer
  simp only [l0, l1, l2, l3, h0, h1, h2, h3, List.reverse_cons, List.reverse_nil, List.nil_append,
    List.cons_append, List.length_cons, List.length_nil, List.mem_cons, List.mem_singleton,
    List.not_mem_nil, or_false, ← hn]
  refine ⟨trivial, ?_, ?_⟩
  · intro b hb
    rcases hb with e | e | e | e | e | e | e | e <;> subst e <;> omega
  · simp only [Finset.sum_range_succ, Finset.sum_range_zero, List.getD_cons_zero,
      List.getD_cons_succ]
    omega

/-- C13 at the key of the documentation: `<Buffer 62 4b ea 66 00 00 00 10>`. -/
theorem C13_toBuffer_big_endian_witness :
    (new (some 35210) (some 21493) (some 16) none).UInt64Quadkey.bits < 2 ^ 64
      ∧ (new (some 35210) (some 21493) (some 16) none).toBuffer
          = [0x62, 0x4b, 0xea, 0x66, 0x00, 0x00, 0x00, 0x10]
      ∧ (new (some 35210) (some 21493) (some 16) none).toBuffer.length = 8 :=
  ⟨by decide, by decide,
    (C13_toBuffer_big_endian (new (some 35210) (some 21493) (some 16) none) (by decide)).1⟩

/-- C14: for `low`, `high` in `[0, 2^32)`, `fromBits(low, high)` has the packed
integer `high * 2^32 + low`, unsigned, and `getLowBits()` and `getHighBits()`
give `low` and `high` back as natural numbers. -/
theorem C14_fromBits_halves (low high : Nat) (hl : low < 2 ^ 32) (hh : high < 2 ^ 32) :
    (fromBits low high).UInt64Quadkey = ⟨high * 2 ^ 32 + low, true⟩
      ∧ (fromBits low high).getLowBits = low
      ∧ (fromBits low high).getHighBits = high := by
  have hv : (fromBits low high).UInt64Quadkey = ⟨high * 2 ^ 32 + low, true⟩ := by
    simp only [fromBits, fromUInt64, new, Option.getD_some, Long.fromBits,
      Nat.mod_eq_of_lt hl, Nat.mod_eq_of_lt hh]
  refine ⟨hv, ?_, ?_⟩
  · unfold getLowBits Long.getLowBitsUnsigned Long.low
    rw [hv]
    simp only
    split <;> omega
  · unfold getHighBits Long.getHighBitsUnsigned Long.high
    rw [hv]
    simp only
    split <;> omega

/-- C14 at the halves of the acceptance test. -/
theorem C14_fromBits_halves_witness :
    (11 < 2 ^ 32 ∧ 618776576 < 2 ^ 32)
      ∧ (fromBits 11 618776576).getLowBits = 11
      ∧ (fromBits 11 618776576).getHighBits = 618776576 :=
  ⟨by decide, (C14_fromBits_halves 11 618776576 (by decide) (by decide)).2⟩

/-- C17: for every Long `v`, `fromUInt64(v)` without a zoom has the zoom field
`v AND 31`, the low 5 bits of `v`, and the packed integer `v` itself. -/
theorem C17_fromUInt64_zoom (v : Long) :
    (fromUInt64 v none).zoom = v.bits &&& 31
      ∧ (fromUInt64 v none).zoom = v.bits % 2 ^ 5
      ∧ (fromUInt64 v none).UInt64Quadkey = v := by
  have hz : ((fromUInt64 v none).zoom : Int) = ((v.bits % 2 ^ 5 : Nat) : Int) := by
    have h1 := getZoom_eq_mod (fromUInt64 v none)
    have h2 : (fromUInt64 v none).zoom = ((fromUInt64 v none).getZoom).toNat := by
      simp [fromUInt64, new, getZoom]
    have h3 : (fromUInt64 v none).UInt64Quadkey = v := rfl
    rw [h3] at h1
    omega
  have hz' : (fromUInt64 v none).zoom = v.bits % 2 ^ 5 := by exact_mod_cast hz
  refine ⟨?_, hz', rfl⟩
  rw [hz']
  exact (Nat.and_pow_two_sub_one_eq_mod v.bits 5).symm

/-- C18: the constructor keeps its arguments, `new BinaryQuadkey(x, y, z)`
having the fields `x`, `y`, `z` and the packed integer `fromTileXY(x, y, z)`;
without arguments the fields and the packed integer are 0. -/
theorem C18_constructor_fields (x y z : Nat) :
    (new (some x) (some y) (some z) none).x = x
      ∧ (new (some x) (some y) (some z) none).y = y
      ∧ (new (some x) (some y) (some z) none).zoom = z
      ∧ (new (some x) (some y) (some z) none).UInt64Quadkey = fromTileXY x y z
      ∧ new none none none none = ⟨0, 0, 0, ⟨0, true⟩⟩ :=
  ⟨rfl, rfl, rfl, rfl, by decide⟩

theorem mod_two_pow_div (x z j : Nat) (hj : j < z) :
    x % 2 ^ z / 2 ^ j % 2 = x / 2 ^ j % 2 := by
  have e : (2 : Nat) ^ z = 2 ^ j * (2 * 2 ^ (z - j - 1)) := by
    rw [← pow_succ', ← pow_add]
    congr 1
    omega
  rw [e, Nat.mod_mul_right_div_self, Nat.mod_mul_right_mod]

/-- C19: the bits of `x` and `y` at or above position `zoom` are ignored: for
zoom `z` in [0,23] and all `x`, `y`, `fromTileXY(x, y, z)` is
`fromTileXY(x mod 2^z, y mod 2^z, z)`. -/
theorem C19_fromTileXY_ignores_high_bits (x y z : Nat) (hz : z ≤ 23) :
    fromTileXY x y z = fromTileXY (x % 2 ^ z) (y % 2 ^ z) z := by
  rw [fromTileXY_eq x y z (by omega), fromTileXY_eq (x % 2 ^ z) (y % 2 ^ z) z (by omega)]
  congr 3
  apply Finset.sum_congr rfl
  intro j hj
  have hj' : j < z := Finset.mem_range.mp hj
  simp only [tileDigit, mod_two_pow_div _ z j hj']

/-- C19 at a tile whose coordinates exceed the zoom. -/
theorem C19_fromTileXY_ignores_high_bits_witness :
    7 ≤ 23 ∧ fromTileXY (29 + 5 * 2 ^ 7) (50 + 2 ^ 30) 7
      = fromTileXY ((29 + 5 * 2 ^ 7) % 2 ^ 7) ((50 + 2 ^ 30) % 2 ^ 7) 7 :=
  ⟨by decide, C19_fromTileXY_ignores_high_bits (29 + 5 * 2 ^ 7) (50 + 2 ^ 30) 7 (by decide)⟩

/-! ## The length of `toQuadkey` -/

theorem low5_eq (r z : Nat) (hz : z ≤ 31) (h : r % 2 ^ (64 - 2 * z) = 0) :
    (r ||| z) % 2 ^ 5 = z := by
  rw [or_mod_two_pow]
  have hzz : z % 2 ^ 5 = z := Nat.mod_eq_of_lt (by omega)
  rw [hzz]
  by_cases h29 : z ≤ 29
  · rw [mod_two_pow_of_le r 5 _ (by omega) h, Nat.zero_or]
  · have h2 : r % 2 ^ 2 = 0 := mod_two_pow_of_le r 2 _ (by omega) h
    have hlt : r % 2 ^ 5 < 2 ^ 5 := Nat.mod_lt _ (by norm_num)
    by_cases h30 : z = 30
    · subst h30
      have h4 : r % 2 ^ 4 = 0 := mod_two_pow_of_le r 4 _ (by omega) h
      have hc : r % 2 ^ 5 = 0 ∨ r % 2 ^ 5 = 16 := by omega
      rcases hc with e | e <;> rw [e] <;> decide
    · have h31 : z = 31 := by omega
      subst h31
      obtain ⟨t, ht⟩ : ∃ t, t = r % 2 ^ 5 := ⟨_, rfl⟩
      rw [← ht]
      have ht32 : t < 32 := by omega
      interval_cases t <;> decide

theorem ZoomKept.zoom_kept (q : BinaryQuadkey) (h : ZoomKept q) : q.getZoom = (q.zoom : Int) := by
  cases h with
  | ofNew x y zoom hz =>
    rw [getZoom_eq_mod]
    obtain ⟨z, hzd⟩ : ∃ z, z = zoom.getD 0 := ⟨_, rfl⟩
    rw [← hzd] at hz
    simp only [new, Option.getD_none, ← hzd]
    have h0 : Long.UZERO = ⟨0 * 2 ^ (64 - 2 * (z - z)), true⟩ := by
      rw [Nat.zero_mul]
      exact Long.fromInt_of_lt 0 true (by norm_num)
    unfold fromTileXY
    rw [h0, fromTileXYLoop_bits _ _ z (by omega) true z 0 (le_refl z),
      Long.fromNumber_of_lt z (by omega)]
    simp only [Long.or]
    rw [low5_eq ((0 * 4 ^ z + ∑ j in Finset.range z,
      tileDigit (x.getD 0) (y.getD 0) j * 4 ^ j) * 2 ^ (64 - 2 * z)) z hz (Nat.mul_mod_left _ _)]
  | ofQuadkey s hs =>
    by_cases h0 : s.length = 0
    · have hs0 : s = "" := by
        obtain ⟨l⟩ := s
        exact congrArg String.mk (List.length_eq_zero.mp h0)
      subst hs0
      decide
    · rw [getZoom_eq_mod]
      unfold fromQuadkey
      rw [fromUInt64_some _ _ h0, Long.fromNumber_of_lt _ (by omega)]
      simp only [Long.or]
      rw [low5_eq _ s.length hs (fromQuadkey_fold_mod s s.length (by omega))]
  | ofUInt64 v =>
    have h2 : (fromUInt64 v none).zoom = ((fromUInt64 v none).getZoom).toNat := by
      simp [fromUInt64, new, getZoom]
    have h1 := getZoom_eq_mod (fromUInt64 v none)
    omega
  | ofBits low high =>
    have h2 : (fromBits low high).zoom = ((fromBits low high).getZoom).toNat := by
      simp [fromBits, fromUInt64, new, getZoom]
    have h1 := getZoom_eq_mod (fromBits low high)
    omega

theorem Long.charBits_le (v : Long) (h : v.bits < 2 ^ 63) (bitLocation : Int) :
    ∃ d : Nat, d ≤ 3
      ∧ ((v.and (Long.UTHREE.shiftLeft bitLocation)).shiftRight bitLocation).toInt = (d : Int) := by
  obtain ⟨n, hn⟩ : ∃ n, n = (bitLocation % 64).toNat := ⟨_, rfl⟩
  have h3 : Long.UTHREE = ⟨3, true⟩ := Long.fromInt_of_lt 3 true (by norm_num)
  have key : ∀ x : Nat, x ≤ 3 → ∀ u : Bool, ∃ d : Nat, d ≤ 3 ∧ Long.toInt ⟨x, u⟩ = (d : Int) := by
    intro x hx u
    refine ⟨x, hx, ?_⟩
    have e : x % 2 ^ 32 = x := Nat.mod_eq_of_lt (by omega)
    have hn31 : ¬ 2 ^ 31 ≤ x := by omega
    unfold Long.toInt
    simp only [e]
    cases u
    · simp only [Bool.false_eq_true, if_false, if_neg hn31]
    · simp only [if_true]
  unfold Long.shiftLeft Long.shiftRight
  simp only [← hn, h3, Long.and]
  by_cases h0 : n = 0
  · simp only [h0, if_true]
    exact key _ (Nat.and_le_right) _
  · simp only [h0, if_false]
    have hle : v.bits &&& (3 <<< n % 2 ^ 64) ≤ v.bits := Nat.and_le_left
    have hlt : v.bits &&& (3 <<< n % 2 ^ 64) < 2 ^ 64 := by omega
    have hneg : ¬ 2 ^ 63 ≤ (v.bits &&& (3 <<< n % 2 ^ 64)) % 2 ^ 64 := by
      rw [Nat.mod_eq_of_lt hlt]
      omega
    rw [if_neg hneg, Nat.mod_eq_of_lt hlt]
    apply key
    rw [Nat.shiftRight_eq_div_pow]
    have hm : v.bits &&& (3 <<< n % 2 ^ 64) ≤ 3 * 2 ^ n :=
      calc v.bits &&& (3 <<< n % 2 ^ 64) ≤ 3 <<< n % 2 ^ 64 := Nat.and_le_right
        _ ≤ 3 <<< n := Nat.mod_le _ _
        _ = 3 * 2 ^ n := Nat.shiftLeft_eq _ _
    calc (v.bits &&& (3 <<< n % 2 ^ 64)) / 2 ^ n ≤ 3 * 2 ^ n / 2 ^ n := Nat.div_le_div_right hm
      _ = 3 := Nat.mul_div_cancel _ (Nat.two_pow_pos n)

theorem toString_digit_length (d : Nat) (hd : d ≤ 3) : (toString (d : Int)).length = 1 := by
  interval_cases d <;> rfl

theorem BinaryQuadkey.toQuadkey_fold_length (q : BinaryQuadkey) (h : q.UInt64Quadkey.bits < 2 ^ 63)
    (is : List Nat) :
    ∀ acc : String, (is.foldl (toQuadkeyBody q) acc).length = acc.length + is.length := by
  induction is with
  | nil => intro acc; rfl
  | cons i t ih =>
    intro acc
    rw [List.foldl_cons, ih]
    obtain ⟨d, hd, he⟩ := Long.charBits_le q.UInt64Quadkey h (64 - (((i : Int) + 1) * 2))
    unfold toQuadkeyBody
    simp only [he, String.length_append, toString_digit_length d hd, List.length_cons]
    omega

theorem BinaryQuadkey.toQuadkey_length (q : BinaryQuadkey) (h : q.UInt64Quadkey.bits < 2 ^ 63) :
    q.toQuadkey.length = q.zoom := by
  unfold toQuadkey
  rw [toQuadkey_fold_length q h, List.length_range]
  exact Nat.zero_add _

/-- C11, refuted as stated.  With the explicit zoom 1, `fromUInt64(2, 1)` has
`getZoom() = 2` and a quadkey string of 1 character; `new BinaryQuadkey(0, 0,
32)` has `getZoom() = 0` and a string of 32 characters; and the key of the
string "2", whose packed integer has bit 63 set, has `getZoom() = 1` and a
string of 10 characters. -/
theorem C11_getZoom_ne_length :
    ((fromUInt64 (Long.fromBits 2 0 true) (some 1)).getZoom = 2
        ∧ (fromUInt64 (Long.fromBits 2 0 true) (some 1)).toQuadkey.length = 1)
      ∧ ((new (some 0) (some 0) (some 32) none).getZoom = 0
        ∧ (new (some 0) (some 0) (some 32) none).toQuadkey.length = 32)
      ∧ ((fromQuadkey "2").getZoom = 1 ∧ (fromQuadkey "2").toQuadkey.length = 10) := by
  decide

/-- C11, amended: for every key given by `new BinaryQuadkey(x, y, zoom)` with
a zoom of at most 31, by `fromQuadkey` of a string of at most 31 characters, by
`fromUInt64` without a zoom or by `fromBits`, whose packed integer has bit 63
clear, `getZoom()` is the length of `toQuadkey()`. -/
theorem C11_getZoom_eq_length (q : BinaryQuadkey) (hq : ZoomKept q)
    (h63 : q.UInt64Quadkey.bits < 2 ^ 63) :
    q.getZoom = (q.toQuadkey.length : Int) := by
  rw [ZoomKept.zoom_kept q hq, toQuadkey_length q h63]

/-- C11 (amended) at the key of the acceptance test `fromBits`. -/
theorem C11_getZoom_eq_length_witness :
    (ZoomKept (fromBits 11 618776576) ∧ (fromBits 11 618776576).UInt64Quadkey.bits < 2 ^ 63)
      ∧ (fromBits 11 618776576).getZoom = ((fromBits 11 618776576).toQuadkey.length : Int) :=
  ⟨⟨ZoomKept.ofBits 11 618776576, by decide⟩,
    C11_getZoom_eq_length (fromBits 11 618776576) (ZoomKept.ofBits 11 618776576) (by decide)⟩

/-! ## The comparison under a prefix mask -/

theorem testBit_prefix_mask (m j : Nat) (hm : m ≤ 64) :
    (2 ^ 64 - 2 ^ m).testBit j = (decide (m ≤ j) && decide (j < 64)) := by
  have e : 2 ^ 64 - 2 ^ m = 2 ^ m * (2 ^ (64 - m) - 1) := by
    rw [Nat.mul_sub, ← pow_add, Nat.mul_one]
    congr 2
    omega
  rw [e, Nat.testBit_mul_pow_two, Nat.testBit_two_pow_sub_one]
  by_cases h1 : m ≤ j
  · by_cases h2 : j < 64
    · have : j - m < 64 - m := by omega
      simp [h1, h2, this]
    · have : ¬ j - m < 64 - m := by omega
      simp [h1, h2, this]
  · simp [h1]

theorem and_prefix_mask_eq_iff (a b m : Nat) (hm : m ≤ 64) :
    a &&& (2 ^ 64 - 2 ^ m) = b &&& (2 ^ 64 - 2 ^ m)
      ↔ ∀ j, m ≤ j → j < 64 → a.testBit j = b.testBit j := by
  constructor
  · intro h j h1 h2
    have hj : (a &&& (2 ^ 64 - 2 ^ m)).testBit j = (b &&& (2 ^ 64 - 2 ^ m)).testBit j := by
      rw [h]
    rw [Nat.testBit_and, Nat.testBit_and, testBit_prefix_mask m j hm] at hj
    simpa [h1, h2] using hj
  · intro h
    apply Nat.eq_of_testBit_eq
    intro j
    rw [Nat.testBit_and, Nat.testBit_and, testBit_prefix_mask m j hm]
    by_cases h1 : m ≤ j
    · by_cases h2 : j < 64
      · rw [h j h1 h2]
      · simp [h2]
    · simp [h1]

theorem and_lt_of_lt (a m n : Nat) (h : a < n) : a &&& m < n :=
  Nat.lt_of_le_of_lt Nat.and_le_left h

/-- C16: `A.isParentOf(B)` should be true whenever `B.getZoom()` is above
`A.zoom` and the top `2 * A.zoom` bits agree.  `A = fromBits(1, 0x80000000)`
holds an unsigned Long and `B = fromUInt64(v)` the signed Long `v` of the halves
`2` and `0x80000000`: `B.getZoom()` is 2, above `A.zoom = 1`, and bits 63..62
agree, yet `A.isParentOf(B)` is false, while for the same 64 bits in an unsigned
Long, `fromBits(2, 0x80000000)`, it is true.  Likewise the key of the string
"3" is no parent of the key of the documentation example of `fromUInt64`, the
signed Long of the bits `0xFFFFFFFFFFFC0017`, and is one of its unsigned twin. -/
theorem C16_isParentOf_mixed_signs :
    (fromBits 1 0x80000000).zoom = 1
      ∧ (fromUInt64 (Long.fromBits 2 0x80000000 false) none).getZoom = 2
      ∧ (fromBits 1 0x80000000).UInt64Quadkey.bits / 2 ^ 62
          = (fromUInt64 (Long.fromBits 2 0x80000000 false) none).UInt64Quadkey.bits / 2 ^ 62
      ∧ (fromBits 1 0x80000000).isParentOf (fromUInt64 (Long.fromBits 2 0x80000000 false) none)
          = some false
      ∧ (fromBits 1 0x80000000).isParentOf (fromBits 2 0x80000000) = some true
      ∧ (fromQuadkey "3").isParentOf (fromUInt64 (Long.fromBits 0xFFFC0017 0xFFFFFFFF false) none)
          = some false
      ∧ (fromQuadkey "3").isParentOf (fromBits 0xFFFC0017 0xFFFFFFFF) = some true := by
  decide

/-- Where the comparison of `isParentOf` is the comparison of bits: for keys
`A`, `B` with `A.zoom` in [0,23] whose packed Longs have the same signedness, or
of which one has bit 63 clear, `A.isParentOf(B)` returns a boolean, which is
true if and only if `B.getZoom()` is above `A.zoom` and the bits
`64 - 2 * A.zoom .. 63` of the two packed integers agree. -/
theorem BinaryQuadkey.isParentOf_iff_same_sign (A B : BinaryQuadkey) (hz : A.zoom ≤ 23)
    (hs : A.UInt64Quadkey.unsigned = B.UInt64Quadkey.unsigned
      ∨ A.UInt64Quadkey.bits < 2 ^ 63 ∨ B.UInt64Quadkey.bits < 2 ^ 63) :
    ∃ r, A.isParentOf B = some r
      ∧ (r = true ↔ ((A.zoom : Int) < B.getZoom
          ∧ ∀ j, 64 - 2 * A.zoom ≤ j → j < 64 →
              A.UInt64Quadkey.bits.testBit j = B.UInt64Quadkey.bits.testBit j)) := by
  unfold isParentOf
  by_cases hle : B.getZoom ≤ (A.zoom : Int)
  · refine ⟨false, by rw [if_pos hle], ?_⟩
    constructor
    · intro h
      exact absurd h (by decide)
    · intro h
      omega
  · rw [if_neg hle, PREFIX_MASKS_eq A.zoom hz]
    refine ⟨_, rfl, ?_⟩
    have hcond : ¬ (A.UInt64Quadkey.unsigned ≠ B.UInt64Quadkey.unsigned
        ∧ (A.UInt64Quadkey.bits &&& (2 ^ 64 - 2 ^ (64 - 2 * A.zoom))) / 2 ^ 63 % 2 = 1
        ∧ (B.UInt64Quadkey.bits &&& (2 ^ 64 - 2 ^ (64 - 2 * A.zoom))) / 2 ^ 63 % 2 = 1) := by
      rintro ⟨h1, h2, h3⟩
      rcases hs with e | e | e
      · exact h1 e
      · have := and_lt_of_lt _ (2 ^ 64 - 2 ^ (64 - 2 * A.zoom)) _ e
        omega
      · have := and_lt_of_lt _ (2 ^ 64 - 2 ^ (64 - 2 * A.zoom)) _ e
        omega
    simp only [Long.equals, Long.and, if_neg hcond, decide_eq_true_eq]
    rw [and_prefix_mask_eq_iff _ _ _ (by omega)]
    constructor
    · intro h
      exact ⟨by omega, h⟩
    · intro h
      exact h.2

/-! ## Numerals -/

theorem charDigit_digitChar (d : Nat) (hd : d < 36) :
    charDigit (Long.digitChar d) = d ∧ Long.digitChar d ∈ numeralChars
      ∧ (Long.digitChar d = '0' ↔ d = 0) := by
  interval_cases d <;> decide

theorem Long.numeralCore_eq (r : Nat) (hr : 1 < r) :
    ∀ (fuel n : Nat) (ds : List Char), 0 < n → n < fuel →
      Long.numeralCore r fuel n ds = (Nat.digits r n).reverse.map Long.digitChar ++ ds := by
  intro fuel
  induction fuel with
  | zero => intro n ds _ h; omega
  | succ fuel ih =>
    intro n ds hn hlt
    rw [Nat.digits_def' hr hn]
    unfold Long.numeralCore
    by_cases h0 : n / r = 0
    · simp [h0]
    · have hpos : 0 < n / r := Nat.pos_of_ne_zero h0
      have hlt' : n / r < fuel := by
        have : n / r < n := Nat.div_lt_self hn hr
        omega
      simp only [h0, if_false]
      rw [ih (n / r) _ hpos hlt']
      simp

theorem Long.numeral_data (r n : Nat) (hr : 1 < r) (hn : 0 < n) :
    (Long.numeral r n).data = (Nat.digits r n).reverse.map Long.digitChar := by
  unfold Long.numeral
  rw [Long.numeralCore_eq r hr (n + 1) n [] hn (by omega), List.append_nil]

theorem Long.numeral_zero (r : Nat) : Long.numeral r 0 = "0" := by
  unfold Long.numeral Long.numeralCore
  simp
  rfl

theorem numeralValue_digits (r : Nat) :
    ∀ L : List Nat, (∀ d ∈ L, d < 36) →
      (L.reverse.map Long.digitChar).foldl (fun acc c => acc * r + charDigit c) 0
        = Nat.ofDigits r L := by
  intro L
  induction L with
  | nil => intro _; rfl
  | cons d t ih =>
    intro h
    rw [List.reverse_cons, List.map_append, List.foldl_append,
      ih (fun x hx => h x (List.mem_cons_of_mem _ hx))]
    simp only [List.map_cons, List.map_nil, List.foldl_cons, List.foldl_nil,
      (charDigit_digitChar d (h d (List.mem_cons_self _ _))).1, Nat.ofDigits_cons]
    ring

theorem Long.numeral_spec (r n : Nat) (hr2 : 2 ≤ r) (hr36 : r ≤ 36) :
    numeralValue r (Long.numeral r n) = n
      ∧ (∀ c ∈ (Long.numeral r n).data, c ∈ numeralChars ∧ charDigit c < r)
      ∧ (Long.numeral r n = "0" ∨ (Long.numeral r n).data.head? ≠ some '0') := by
  by_cases hn : n = 0
  · subst hn
    rw [Long.numeral_zero]
    have hv : numeralValue r "0" = 0 := by
      show 0 * r + charDigit '0' = 0
      rw [Nat.zero_mul]
      rfl
    refine ⟨hv, ?_, Or.inl rfl⟩
    intro c hc
    have hc0 : c = '0' := by simpa using hc
    subst hc0
    exact ⟨by decide, by
      have : charDigit '0' = 0 := rfl
      omega⟩
  · have hpos : 0 < n := Nat.pos_of_ne_zero hn
    have hdata := Long.numeral_data r n (by omega) hpos
    have hlt : ∀ d ∈ Nat.digits r n, d < r := fun d hd => Nat.digits_lt_base (by omega) hd
    refine ⟨?_, ?_, Or.inr ?_⟩
    · unfold numeralValue
      rw [hdata, numeralValue_digits r _ (fun d hd => by have := hlt d hd; omega),
        Nat.ofDigits_digits]
    · intro c hc
      rw [hdata] at hc
      obtain ⟨d, hd, rfl⟩ := List.mem_map.mp hc
      have hdr := hlt d (List.mem_reverse.mp hd)
      obtain ⟨h1, h2, _⟩ := charDigit_digitChar d (by omega)
      exact ⟨h2, by omega⟩
    · have hne : Nat.digits r n ≠ [] := Nat.digits_ne_nil_iff_ne_zero.mpr hn
      have hlast := Nat.getLast_digit_ne_zero r hn
      have hmem := List.getLast_mem hne
      have hdr := hlt _ hmem
      rw [hdata, List.head?_map, List.head?_reverse, List.getLast?_eq_getLast _ hne]
      simp only [Option.map_some', ne_eq, Option.some.injEq]
      intro h0
      exact hlast ((charDigit_digitChar _ (by omega)).2.2.mp h0)

/-- C15: `toString` should write the packed integer as an unsigned numeral.
The key of the documentation example of `fromUInt64` holds the signed Long of
the 64 bits `0xFFFFFFFFFFFC0017`, which is what
`Long.fromString("18446744073709289495")` gives; its `toString()` is "-262121",
while the key of the same 64 bits in an unsigned Long prints
"18446744073709289495". -/
theorem C15_toString_signed :
    (fromUInt64 (Long.fromBits 0xFFFC0017 0xFFFFFFFF false) none).UInt64Quadkey.bits
        = 18446744073709289495
      ∧ (fromUInt64 (Long.fromBits 0xFFFC0017 0xFFFFFFFF false) none).toString none
          = some "-262121"
      ∧ (fromUInt64 (Long.fromBits 0xFFFC0017 0xFFFFFFFF false) none).toString (some 16)
          = some "-3ffe9"
      ∧ (fromBits 0xFFFC0017 0xFFFFFFFF).UInt64Quadkey.bits = 18446744073709289495
      ∧ (fromBits 0xFFFC0017 0xFFFFFFFF).toString none = some "18446744073709289495" := by
  decide

/-- Where `toString` writes the unsigned numeral: for every key whose packed
Long is unsigned or has bit 63 clear, and every radix `r` in [2,36],
`toString(r)` returns the base-`r` numeral of the packed integer: its
characters are digits `0-9a-z` below `r`, it writes the packed integer, and it
has no leading zero; without a radix the result is that of the radix 10. -/
theorem BinaryQuadkey.toString_numeral_of_unsigned (q : BinaryQuadkey) (r : Nat)
    (hu : q.UInt64Quadkey.unsigned = true ∨ q.UInt64Quadkey.bits < 2 ^ 63)
    (hr2 : 2 ≤ r) (hr36 : r ≤ 36) :
    ∃ s, q.toString (some r) = some s
      ∧ numeralValue r s = q.UInt64Quadkey.bits
      ∧ (∀ c ∈ s.data, c ∈ numeralChars ∧ charDigit c < r)
      ∧ (s = "0" ∨ s.data.head? ≠ some '0')
      ∧ q.toString none = q.toString (some 10) := by
  have hr0 : r ≠ 0 := by omega
  have hrange : ¬ (r < 2 ∨ 36 < r) := by omega
  have hneg : ¬ (¬ q.UInt64Quadkey.unsigned = true ∧ 2 ^ 63 ≤ q.UInt64Quadkey.bits) := by
    rintro ⟨h1, h2⟩
    rcases hu with h | h
    · exact h1 h
    · omega
  refine ⟨Long.numeral r q.UInt64Quadkey.bits, ?_, ?_⟩
  · unfold BinaryQuadkey.toString Long.toString
    simp only [Option.getD_some, ne_eq, hr0, not_false_eq_true, if_true, if_neg hrange,
      if_neg hneg]
  · obtain ⟨h1, h2, h3⟩ := Long.numeral_spec r q.UInt64Quadkey.bits hr2 hr36
    exact ⟨h1, h2, h3, rfl⟩

/-- The numerals of the key of the acceptance tests, `x = 29, y = 50,
zoom = 7`, in the radixes 16, 10 and 2. -/
theorem BinaryQuadkey.toString_acceptance :
    (new (some 29) (some 50) (some 7) none).toString (some 16) = some "2d64000000000007"
      ∧ (new (some 29) (some 50) (some 7) none).toString none = some "3270739229377822727"
      ∧ (new (some 29) (some 50) (some 7) none).toString (some 2)
          = some "10110101100100000000000000000000000000000000000000000000000111" := by
  decide

/-! ## The order of the packed integers -/

theorem cons_lt_cons_iff (c1 c2 : Char) (t1 t2 : List Char) :
    (c1 :: t1) < (c2 :: t2) ↔ c1 < c2 ∨ (c1 = c2 ∧ t1 < t2) := by
  constructor
  · intro h
    cases h with
    | cons h => exact Or.inr ⟨rfl, h⟩
    | rel h => exact Or.inl h
  · intro h
    rcases h with h | ⟨h, ht⟩
    · exact List.Lex.rel h
    · subst h
      exact List.Lex.cons ht

theorem digit_lt_iff (c1 c2 : Char) (h1 : c1 ∈ quadDigits) (h2 : c2 ∈ quadDigits) :
    c1 < c2 ↔ digitValue c1 < digitValue c2 := by
  simp only [quadDigits, List.mem_cons, List.mem_singleton, List.not_mem_nil, or_false] at h1 h2
  rcases h1 with e1 | e1 | e1 | e1 <;> rcases h2 with e2 | e2 | e2 | e2 <;> subst e1 <;> subst e2 <;>
    decide

theorem lex_arith (d1 d2 e r1 r2 : Nat) (h1 : r1 < e) (h2 : r2 < e) :
    d1 * e + r1 < d2 * e + r2 ↔ d1 < d2 ∨ (d1 = d2 ∧ r1 < r2) := by
  rcases lt_trichotomy d1 d2 with h | h | h
  · have hm : (d1 + 1) * e ≤ d2 * e := Nat.mul_le_mul_right e h
    rw [Nat.add_mul, Nat.one_mul] at hm
    constructor
    · intro _
      exact Or.inl h
    · intro _
      omega
  · subst h
    constructor
    · intro hlt
      exact Or.inr ⟨rfl, by omega⟩
    · intro hlt
      rcases hlt with hlt | ⟨_, hlt⟩ <;> omega
  · have hm : (d2 + 1) * e ≤ d1 * e := Nat.mul_le_mul_right e h
    rw [Nat.add_mul, Nat.one_mul] at hm
    constructor
    · intro hlt
      omega
    · intro hlt
      rcases hlt with hlt | ⟨he, _⟩ <;> omega

theorem packedAt_nil (k : Nat) : packedAt k [] = 0 := by
  simp [packedAt, quadValue]

theorem packedAt_cons (k : Nat) (c : Char) (l : List Char) (hk : 2 * (l.length + 1) ≤ k) :
    packedAt k (c :: l) = digitValue c * 2 ^ (k - 2) + (packedAt (k - 2) l + 1) := by
  have e1 : k - 2 * (l.length + 1) = k - 2 - 2 * l.length := by omega
  have e2 : (2 : Nat) ^ (k - 2) = 4 ^ l.length * 2 ^ (k - 2 - 2 * l.length) := by
    rw [show (4 : Nat) = 2 ^ 2 by norm_num, ← pow_mul, ← pow_add]
    congr 1
    omega
  simp only [packedAt, List.map_cons, List.length_cons, quadValue_cons, List.length_map, e1, e2]
  ring

theorem packedAt_succ_lt (k : Nat) (l : List Char) (hl : ∀ c ∈ l, c ∈ quadDigits)
    (hk : 2 * (l.length + 1) ≤ k) (hn : l.length + 1 < 2 ^ (k - 2 * (l.length + 1))) :
    packedAt (k - 2) l + 1 < 2 ^ (k - 2) := by
  have e1 : k - 2 * (l.length + 1) = k - 2 - 2 * l.length := by omega
  have e2 : (2 : Nat) ^ (k - 2) = 4 ^ l.length * 2 ^ (k - 2 - 2 * l.length) := by
    rw [show (4 : Nat) = 2 ^ 2 by norm_num, ← pow_mul, ← pow_add]
    congr 1
    omega
  rw [e1] at hn
  have hv : quadValue (l.map digitValue) < 4 ^ l.length := by
    simpa using quadValue_lt _ (map_digitValue_lt l hl)
  have hm : (quadValue (l.map digitValue) + 1) * 2 ^ (k - 2 - 2 * l.length)
      ≤ 4 ^ l.length * 2 ^ (k - 2 - 2 * l.length) := Nat.mul_le_mul_right _ hv
  rw [Nat.add_mul, Nat.one_mul] at hm
  rw [e2]
  unfold packedAt
  omega

theorem packedAt_lt_iff : ∀ (la lb : List Char) (k : Nat),
    (∀ c ∈ la, c ∈ quadDigits) → (∀ c ∈ lb, c ∈ quadDigits) →
    2 * la.length ≤ k → la.length < 2 ^ (k - 2 * la.length) →
    2 * lb.length ≤ k → lb.length < 2 ^ (k - 2 * lb.length) →
    (packedAt k la < packedAt k lb ↔ la < lb) := by
  intro la
  induction la with
  | nil =>
    intro lb k _ _ _ _ _ _
    cases lb with
    | nil =>
      constructor
      · intro h
        exact absurd h (lt_irrefl _)
      · intro h
        cases h
    | cons c t =>
      constructor
      · intro _
        exact List.Lex.nil
      · intro _
        rw [packedAt_nil]
        unfold packedAt
        simp only [List.length_cons]
        omega
  | cons c1 t1 ih =>
    intro lb k ha hb hka hna hkb hnb
    cases lb with
    | nil =>
      constructor
      · intro h
        rw [packedAt_nil] at h
        omega
      · intro h
        cases h
    | cons c2 t2 =>
      simp only [List.length_cons] at hka hna hkb hnb
      have ha' : ∀ c ∈ t1, c ∈ quadDigits := fun c hc => ha c (List.mem_cons_of_mem _ hc)
      have hb' : ∀ c ∈ t2, c ∈ quadDigits := fun c hc => hb c (List.mem_cons_of_mem _ hc)
      have hc1 := ha c1 (List.mem_cons_self _ _)
      have hc2 := hb c2 (List.mem_cons_self _ _)
      have e1 : k - 2 * (t1.length + 1) = k - 2 - 2 * t1.length := by omega
      have e2 : k - 2 * (t2.length + 1) = k - 2 - 2 * t2.length := by omega
      have hih := ih t2 (k - 2) ha' hb' (by omega) (by rw [← e1]; omega) (by omega)
        (by rw [← e2]; omega)
      rw [packedAt_cons k c1 t1 hka, packedAt_cons k c2 t2 hkb,
        lex_arith _ _ _ _ _ (packedAt_succ_lt k t1 ha' hka hna) (packedAt_succ_lt k t2 hb' hkb hnb),
        cons_lt_cons_iff, digit_lt_iff c1 c2 hc1 hc2, Nat.add_lt_add_iff_right, hih]
      constructor
      · intro h
        rcases h with h | ⟨h, ht⟩
        · exact Or.inl h
        · exact Or.inr ⟨digitValue_inj c1 c2 hc1 hc2 h, ht⟩
      · intro h
        rcases h with h | ⟨h, ht⟩
        · exact Or.inl h
        · exact Or.inr ⟨by rw [h], ht⟩

/-- C20: the packed integers sort like the quadkey strings: for digit strings
`a`, `b` of length at most 23, the packed integer of `fromQuadkey(a)` is below
that of `fromQuadkey(b)`, both being unsigned 64-bit integers, if and only if
`a` precedes `b` in the lexicographic order. -/
theorem C20_packed_order (a b : String) (ha : ∀ c ∈ a.data, c ∈ quadDigits)
    (hb : ∀ c ∈ b.data, c ∈ quadDigits) (hla : a.length ≤ 23) (hlb : b.length ≤ 23) :
    ((fromQuadkey a).UInt64Quadkey.bits < (fromQuadkey b).UInt64Quadkey.bits ↔ a < b)
      ∧ (fromQuadkey a).UInt64Quadkey.unsigned = true
      ∧ (fromQuadkey b).UInt64Quadkey.unsigned = true
      ∧ (fromQuadkey a).UInt64Quadkey.bits < 2 ^ 64
      ∧ (fromQuadkey b).UInt64Quadkey.bits < 2 ^ 64 := by
  rw [fromQuadkey_eq a ha (by omega), fromQuadkey_eq b hb (by omega)]
  obtain ⟨la⟩ := a
  obtain ⟨lb⟩ := b
  simp only [String.length] at hla hlb ⊢
  have hpa : la.length < 2 ^ (64 - 2 * la.length) :=
    calc la.length < 2 ^ 6 := by omega
      _ ≤ 2 ^ (64 - 2 * la.length) := Nat.pow_le_pow_right (by norm_num) (by omega)
  have hpb : lb.length < 2 ^ (64 - 2 * lb.length) :=
    calc lb.length < 2 ^ 6 := by omega
      _ ≤ 2 ^ (64 - 2 * lb.length) := Nat.pow_le_pow_right (by norm_num) (by omega)
  refine ⟨?_, trivial, trivial, ?_, ?_⟩
  · rw [String.lt_iff_toList_lt]
    exact packedAt_lt_iff la lb 64 ha hb (by omega) hpa (by omega) hpb
  · exact packed_lt _ _ (by omega) (by simpa using quadValue_lt _ (map_digitValue_lt la ha))
  · exact packed_lt _ _ (by omega) (by simpa using quadValue_lt _ (map_digitValue_lt lb hb))

/-- C20 at a key and one of its extensions by zeros, and at two keys that
differ in a digit. -/
theorem C20_packed_order_witness :
    ((∀ c ∈ "021".data, c ∈ quadDigits) ∧ (∀ c ∈ "02100".data, c ∈ quadDigits)
        ∧ "021".length ≤ 23 ∧ "02100".length ≤ 23)
      ∧ ((fromQuadkey "021").UInt64Quadkey.bits < (fromQuadkey "02100").UInt64Quadkey.bits
          ↔ "021" < "02100")
      ∧ (fromQuadkey "021").UInt64Quadkey.bits < (fromQuadkey "02100").UInt64Quadkey.bits
      ∧ (fromQuadkey "02100").UInt64Quadkey.bits < (fromQuadkey "03").UInt64Quadkey.bits :=
  ⟨by decide, (C20_packed_order "021" "02100" (by decide) (by decide) (by decide) (by decide)).1,
    by decide, by decide⟩

/-! ## Transitivity of `isParentOf` -/

theorem bit63_and_prefix_mask (a m : Nat) (hm : m ≤ 64) :
    (a &&& (2 ^ 64 - 2 ^ m)) / 2 ^ 63 % 2 = 1 ↔ (m ≤ 63 ∧ a.testBit 63 = true) := by
  have h := Nat.testBit_to_div_mod (x := a &&& (2 ^ 64 - 2 ^ m)) (i := 63)
  rw [Nat.testBit_and, testBit_prefix_mask m 63 hm] at h
  by_cases hd : (a &&& (2 ^ 64 - 2 ^ m)) / 2 ^ 63 % 2 = 1
  · simp only [hd, decide_True, Bool.and_eq_true, decide_eq_true_eq] at h
    exact ⟨fun _ => ⟨h.2.1, h.1⟩, fun _ => hd⟩
  · simp only [hd, decide_False, Bool.and_eq_false_iff, decide_eq_false_iff_not] at h
    constructor
    · intro h1
      exact absurd h1 hd
    · intro h1
      rcases h with h | h | h
      · rw [h1.2] at h
        exact absurd h (by decide)
      · exact absurd h1.1 h
      · omega

theorem Long.masked_equals_iff (a b : Long) (m : Nat) (hm : m ≤ 64) :
    (a.and ⟨2 ^ 64 - 2 ^ m, true⟩).equals (b.and ⟨2 ^ 64 - 2 ^ m, true⟩) = true
      ↔ (∀ j, m ≤ j → j < 64 → a.bits.testBit j = b.bits.testBit j)
        ∧ ¬ (a.unsigned ≠ b.unsigned ∧ m ≤ 63 ∧ a.bits.testBit 63 = true) := by
  unfold Long.equals Long.and
  simp only [bit63_and_prefix_mask _ m hm]
  constructor
  · intro h
    by_cases hc : a.unsigned ≠ b.unsigned ∧ (m ≤ 63 ∧ a.bits.testBit 63 = true)
        ∧ (m ≤ 63 ∧ b.bits.testBit 63 = true)
    · rw [if_pos hc] at h
      exact absurd h (by decide)
    · rw [if_neg hc, decide_eq_true_eq, and_prefix_mask_eq_iff _ _ m hm] at h
      refine ⟨h, ?_⟩
      rintro ⟨h1, h2, h3⟩
      exact hc ⟨h1, ⟨h2, h3⟩, ⟨h2, by rw [← h 63 h2 (by omega)]; exact h3⟩⟩
  · rintro ⟨h, hn⟩
    have hc : ¬ (a.unsigned ≠ b.unsigned ∧ (m ≤ 63 ∧ a.bits.testBit 63 = true)
        ∧ (m ≤ 63 ∧ b.bits.testBit 63 = true)) := by
      rintro ⟨h1, ⟨h2, h3⟩, _⟩
      exact hn ⟨h1, h2, h3⟩
    rw [if_neg hc, decide_eq_true_eq, and_prefix_mask_eq_iff _ _ m hm]
    exact h

theorem BinaryQuadkey.isParentOf_true_iff (A B : BinaryQuadkey) (hz : A.zoom ≤ 23) :
    A.isParentOf B = some true
      ↔ (A.zoom : Int) < B.getZoom
        ∧ (∀ j, 64 - 2 * A.zoom ≤ j → j < 64 →
            A.UInt64Quadkey.bits.testBit j = B.UInt64Quadkey.bits.testBit j)
        ∧ ¬ (A.UInt64Quadkey.unsigned ≠ B.UInt64Quadkey.unsigned ∧ 64 - 2 * A.zoom ≤ 63
            ∧ A.UInt64Quadkey.bits.testBit 63 = true) := by
  unfold isParentOf
  by_cases hle : B.getZoom ≤ (A.zoom : Int)
  · rw [if_pos hle]
    constructor
    · intro h
      exact absurd h (by decide)
    · intro h
      omega
  · rw [if_neg hle, PREFIX_MASKS_eq A.zoom hz]
    simp only [Option.some.injEq]
    rw [Long.masked_equals_iff _ _ _ (by omega)]
    constructor
    · intro h
      exact ⟨by omega, h.1, h.2⟩
    · intro h
      exact ⟨h.2.1, h.2.2⟩

/-- C21: `isParentOf` is transitive on well-formed keys: for keys `A`, `B`, `C`
whose zoom field equals `getZoom()` and is in [0,23], if `A.isParentOf(B)` and
`B.isParentOf(C)` are true then `A.isParentOf(C)` is true. -/
theorem C21_isParentOf_trans (A B C : BinaryQuadkey)
    (_ : A.getZoom = (A.zoom : Int)) (hB : B.getZoom = (B.zoom : Int))
    (_ : C.getZoom = (C.zoom : Int))
    (hzA : A.zoom ≤ 23) (hzB : B.zoom ≤ 23) (_ : C.zoom ≤ 23)
    (hAB : A.isParentOf B = some true) (hBC : B.isParentOf C = some true) :
    A.isParentOf C = some true := by
  rw [isParentOf_true_iff A B hzA] at hAB
  rw [isParentOf_true_iff B C hzB] at hBC
  rw [isParentOf_true_iff A C hzA]
  obtain ⟨h1, h2, h3⟩ := hAB
  obtain ⟨k1, k2, k3⟩ := hBC
  have hlt : A.zoom < B.zoom := by omega
  refine ⟨by omega, ?_, ?_⟩
  · intro j hj hj64
    rw [h2 j hj hj64, k2 j (by omega) hj64]
  · rintro ⟨f1, f2, f3⟩
    have hfAB : A.UInt64Quadkey.unsigned = B.UInt64Quadkey.unsigned := by
      by_contra hne
      exact h3 ⟨hne, f2, f3⟩
    have hb63 : B.UInt64Quadkey.bits.testBit 63 = true := by
      rw [← h2 63 f2 (by omega)]
      exact f3
    have hfBC : B.UInt64Quadkey.unsigned = C.UInt64Quadkey.unsigned := by
      by_contra hne
      exact k3 ⟨hne, by omega, hb63⟩
    exact f1 (hfAB.trans hfBC)

/-- C21 at the keys of the strings "0", "02" and "021". -/
theorem C21_isParentOf_trans_witness :
    ((fromQuadkey "0").getZoom = ((fromQuadkey "0").zoom : Int)
        ∧ (fromQuadkey "02").getZoom = ((fromQuadkey "02").zoom : Int)
        ∧ (fromQuadkey "021").getZoom = ((fromQuadkey "021").zoom : Int)
        ∧ (fromQuadkey "0").zoom ≤ 23 ∧ (fromQuadkey "02").zoom ≤ 23
        ∧ (fromQuadkey "021").zoom ≤ 23
        ∧ (fromQuadkey "0").isParentOf (fromQuadkey "02") = some true
        ∧ (fromQuadkey "02").isParentOf (fromQuadkey "021") = some true)
      ∧ (fromQuadkey "0").isParentOf (fromQuadkey "021") = some true :=
  ⟨⟨by decide, by decide, by decide, by decide, by decide, by decide, by decide, by decide⟩,
    C21_isParentOf_trans (fromQuadkey "0") (fromQuadkey "02") (fromQuadkey "021") (by decide)
      (by decide) (by decide) (by decide) (by decide) (by decide) (by decide) (by decide)⟩
